import Mathlib

/-!
Shallow embedding of the repository's two modules:

* `src/python-commons/file_io.py` — `read_json`, `write_json` (atomic and
  non-atomic modes) and the `_json_default` fallback encoder.  Python values
  are embedded as `PyVal`; the JSON serializer (`json.dump`) is embedded as
  the fueled `dumpVal` (fuel models Python's recursion limit); the JSON
  parser (`json.load`) as the fueled recursive-descent `parseVal`.  The
  filesystem is a map from (directory, file name) to text content, with a
  directory-existence predicate, so that parent creation, temporary files
  and atomic replace can be stated.

* `src/python-practices/mongo.py` — the lazily initialised cached client
  pair, embedded as explicit state passing over `MongoGlobals`.

Floats are not modelled (values are `Int`-numbered); `str(value)` is
modelled by the recursive `pyStr`, a faithful-in-shape approximation of
Python's `repr`/`str` on the embedded value forms.
-/

/-- Embedded Python values: the JSON-native forms (`None`, `bool`, `int`,
`str`, `list`, `dict`) plus the non-native forms that `_json_default`
handles: `pathlib.Path`, `set`, `frozenset`, and duck-typed objects carrying
optional `to_string` / `to_wkt` / `to_epsg` / `item` methods.  For a method
field, `none` means the attribute is absent, `some none` means it is
callable but raises on invocation, and `some (some r)` means it returns `r`
(`to_epsg` additionally distinguishes returning `None`: `some (some none)`).
`rep` is the object's default string representation. -/
inductive PyVal where
  | null
  | bool (b : Bool)
  | int (n : Int)
  | str (s : String)
  | list (xs : List PyVal)
  | dict (entries : List (String × PyVal))
  | path (p : String)
  | set (elems : List PyVal)
  | frozenset (elems : List PyVal)
  | obj (ts : Option (Option String)) (twkt : Option (Option String))
        (tepsg : Option (Option (Option Int))) (itm : Option (Option PyVal))
        (rep : String)

/-- Embedded Python exceptions, by kind, with message. -/
inductive PyErr where
  | fileNotFound (msg : String)
  | oserr (msg : String)
  | valueErr (msg : String)
  | typeErr (msg : String)
  | recursionErr
  | custom (msg : String)
deriving DecidableEq

/-- `FileNotFoundError` and `OSError` are both I/O errors (in Python,
`FileNotFoundError` is a subclass of `OSError`). -/
def PyErr.isOSError : PyErr → Bool
  | .fileNotFound _ => true
  | .oserr _ => true
  | _ => false

/-- Decimal digit character for a digit value. -/
def digitCh : Nat → Char
  | 0 => '0' | 1 => '1' | 2 => '2' | 3 => '3' | 4 => '4'
  | 5 => '5' | 6 => '6' | 7 => '7' | 8 => '8' | _ => '9'

/-- Lower-case hexadecimal digit character for a digit value
(Python's `\uXXXX` escapes use lower-case hex). -/
def hexCh : Nat → Char
  | 0 => '0' | 1 => '1' | 2 => '2' | 3 => '3' | 4 => '4'
  | 5 => '5' | 6 => '6' | 7 => '7' | 8 => '8' | 9 => '9'
  | 10 => 'a' | 11 => 'b' | 12 => 'c' | 13 => 'd' | 14 => 'e' | _ => 'f'

/-- Numeric value of a decimal digit character. -/
def charVal (c : Char) : Nat := c.toNat - 48

/-- Numeric value of a hexadecimal digit character (0 if not hex). -/
def hexVal (c : Char) : Nat :=
  if 48 ≤ c.toNat ∧ c.toNat ≤ 57 then c.toNat - 48
  else if 97 ≤ c.toNat ∧ c.toNat ≤ 102 then c.toNat - 87
  else if 65 ≤ c.toNat ∧ c.toNat ≤ 70 then c.toNat - 55
  else 0

/-- Whether a character is a hexadecimal digit. -/
def isHexDigit (c : Char) : Bool :=
  (48 ≤ c.toNat ∧ c.toNat ≤ 57) ∨ (97 ≤ c.toNat ∧ c.toNat ≤ 102) ∨
    (65 ≤ c.toNat ∧ c.toNat ≤ 70)

/-- Decimal digit characters of a natural number, most significant first
(the text `repr(n)` produced by the serializer for a non-negative int). -/
def natToChars (n : Nat) : List Char :=
  if _h : n < 10 then [digitCh n]
  else natToChars (n / 10) ++ [digitCh (n % 10)]
termination_by n
decreasing_by
  exact Nat.div_lt_self (by omega) (by omega)

/-- Value of a most-significant-first decimal digit string. -/
def charsToNat (ds : List Char) : Nat :=
  ds.foldl (fun a c => 10 * a + charVal c) 0

/-- Decimal text of an integer, as Python's `repr` prints it. -/
def intToChars (n : Int) : List Char :=
  if n < 0 then '-' :: natToChars n.natAbs else natToChars n.natAbs

/-- JSON string-character escaping as performed by Python's `json.dump`:
`"` and `\` get a backslash escape, the named control characters use their
short escapes, other control characters use `\u00XX`; with `ensure_ascii`
(`ea`) set, characters outside the printable ASCII range are `\uXXXX`
escaped as well (with surrogate pairs above the BMP). -/
def escChar (ea : Bool) (c : Char) : List Char :=
  if c = '"' then ['\\', '"']
  else if c = '\\' then ['\\', '\\']
  else if c.toNat = 8 then ['\\', 'b']
  else if c.toNat = 9 then ['\\', 't']
  else if c.toNat = 10 then ['\\', 'n']
  else if c.toNat = 12 then ['\\', 'f']
  else if c.toNat = 13 then ['\\', 'r']
  else if c.toNat < 32 then
    ['\\', 'u', '0', '0', hexCh (c.toNat / 16), hexCh (c.toNat % 16)]
  else if ea ∧ 126 < c.toNat then
    if c.toNat < 65536 then
      ['\\', 'u', hexCh (c.toNat / 4096 % 16), hexCh (c.toNat / 256 % 16),
        hexCh (c.toNat / 16 % 16), hexCh (c.toNat % 16)]
    else
      let m := c.toNat - 65536
      let hi := 55296 + m / 1024
      let lo := 56320 + m % 1024
      ['\\', 'u', hexCh (hi / 4096 % 16), hexCh (hi / 256 % 16),
        hexCh (hi / 16 % 16), hexCh (hi % 16),
        '\\', 'u', hexCh (lo / 4096 % 16), hexCh (lo / 256 % 16),
        hexCh (lo / 16 % 16), hexCh (lo % 16)]
  else [c]

/-- Escape every character of a string body. -/
def escChars (ea : Bool) : List Char → List Char
  | [] => []
  | c :: cs => escChar ea c ++ escChars ea cs

/-- The newline-plus-indentation emitted by `json.dump` before an element
at nesting level `lvl`: nothing in compact mode, a newline followed by
`indent * lvl` spaces in indented mode (Python clamps negative indents
to zero). -/
def sp (ind : Option Int) (lvl : Nat) : List Char :=
  match ind with
  | none => []
  | some i => '\n' :: List.replicate (i.toNat * lvl) ' '

/-- The separator `json.dump` places between consecutive container items:
`", "` in compact mode, `","` followed by a fresh indented line otherwise. -/
def itemSep (ind : Option Int) (lvl : Nat) : List Char :=
  match ind with
  | none => [',', ' ']
  | some _ => ',' :: sp ind lvl

/-- The text a serialized object key contributes: quoted escaped key
followed by the key separator `": "`. -/
def keyChars (ea : Bool) (k : String) : List Char :=
  '"' :: (escChars ea k.data ++ ['"', ':', ' '])

mutual
/-- Pure JSON text of a native value, exactly as `json.dump` lays it out
(compact separators for `indent=None`, newline-plus-indent layout
otherwise; key separator `": "` in both modes).  Non-native constructors
are given a placeholder clause here; `dumpVal` (the embedding of the
serializer) never takes this function's value on them. -/
def serVal (ea : Bool) (ind : Option Int) (lvl : Nat) : PyVal → List Char
  | .int n => intToChars n
  | .str s => '"' :: (escChars ea s.data ++ ['"'])
  | .bool false => 'f' :: ['a', 'l', 's', 'e']
  | .null => 'n' :: ['u', 'l', 'l']
  | .bool true => 't' :: ['r', 'u', 'e']
  | .list [] => ['[', ']']
  | .list (x :: xs) =>
      '[' :: (sp ind (lvl + 1) ++ serVal ea ind (lvl + 1) x ++
        serItems ea ind (lvl + 1) xs ++ sp ind lvl ++ [']'])
  | .dict [] => ['{', '}']
  | .dict (e :: es) =>
      '{' :: (sp ind (lvl + 1) ++ serEntry ea ind (lvl + 1) e ++
        serMembers ea ind (lvl + 1) es ++ sp ind lvl ++ ['}'])
  | _ => []

/-- Text of the remaining items of a non-empty array, each preceded by the
item separator. -/
def serItems (ea : Bool) (ind : Option Int) (lvl : Nat) : List PyVal → List Char
  | [] => []
  | x :: xs => itemSep ind lvl ++ serVal ea ind lvl x ++ serItems ea ind lvl xs

/-- Text of one object member: quoted escaped key, `": "`, value. -/
def serEntry (ea : Bool) (ind : Option Int) (lvl : Nat) : String × PyVal → List Char
  | (k, v) => keyChars ea k ++ serVal ea ind lvl v

/-- Text of the remaining members of a non-empty object. -/
def serMembers (ea : Bool) (ind : Option Int) (lvl : Nat) :
    List (String × PyVal) → List Char
  | [] => []
  | e :: es => itemSep ind lvl ++ serEntry ea ind lvl e ++ serMembers ea ind lvl es
end

mutual
/-- Whether a value is natively JSON-serializable (serialized without ever
invoking the fallback encoder): `None`, bools, ints, strings, and lists /
dicts of native values. -/
def isNative : PyVal → Bool
  | .null => true
  | .bool _ => true
  | .int _ => true
  | .str _ => true
  | .list xs => nativeItems xs
  | .dict es => nativeMembers es
  | _ => false

/-- All elements native. -/
def nativeItems : List PyVal → Bool
  | [] => true
  | x :: xs => isNative x && nativeItems xs

/-- All member values native. -/
def nativeMembers : List (String × PyVal) → Bool
  | [] => true
  | (_, v) :: es => isNative v && nativeMembers es
end

/-- JSON whitespace, as accepted between tokens by Python's `json.loads`. -/
def isWs (c : Char) : Bool :=
  c = ' ' || c = '\t' || c = '\n' || c = '\r'

/-- Drop leading JSON whitespace. -/
def skipWs : List Char → List Char
  | [] => []
  | c :: r => if isWs c then skipWs r else c :: r

/-- Parse the body of a JSON string after the opening quote, undoing the
escaping `json.loads` understands: the named backslash escapes, `\uXXXX`
hex escapes (combining surrogate pairs), and raw characters at or above
0x20; raw control characters are rejected (strict mode).  Lone surrogates
cannot be represented in a `Char`, so they decode to `Char.ofNat`'s
fallback — the serializer under consideration never produces them.
Returns the decoded characters and the remaining input. -/
def parseStringBody : List Char → Option (List Char × List Char)
  | [] => none
  | '"' :: r => some ([], r)
  | '\\' :: 'u' :: a :: b :: c :: d :: '\\' :: 'u' :: e :: f :: g :: h :: r2 =>
      if isHexDigit a ∧ isHexDigit b ∧ isHexDigit c ∧ isHexDigit d then
        let n := hexVal a * 4096 + hexVal b * 256 + hexVal c * 16 + hexVal d
        if 55296 ≤ n ∧ n ≤ 56319 then
          if (isHexDigit e ∧ isHexDigit f ∧ isHexDigit g ∧ isHexDigit h) ∧
              (56320 ≤ hexVal e * 4096 + hexVal f * 256 + hexVal g * 16 + hexVal h ∧
                hexVal e * 4096 + hexVal f * 256 + hexVal g * 16 + hexVal h ≤ 57343) then
            (parseStringBody r2).map fun pr =>
              (Char.ofNat (65536 + (n - 55296) * 1024 +
                (hexVal e * 4096 + hexVal f * 256 + hexVal g * 16 + hexVal h - 56320)) ::
                pr.1, pr.2)
          else
            (parseStringBody ('\\' :: 'u' :: e :: f :: g :: h :: r2)).map fun pr =>
              (Char.ofNat n :: pr.1, pr.2)
        else
          (parseStringBody ('\\' :: 'u' :: e :: f :: g :: h :: r2)).map fun pr =>
            (Char.ofNat n :: pr.1, pr.2)
      else none
  | '\\' :: 'u' :: a :: b :: c :: d :: r =>
      if isHexDigit a ∧ isHexDigit b ∧ isHexDigit c ∧ isHexDigit d then
        (parseStringBody r).map fun pr =>
          (Char.ofNat (hexVal a * 4096 + hexVal b * 256 + hexVal c * 16 + hexVal d) ::
            pr.1, pr.2)
      else none
  | '\\' :: e :: r =>
      match e with
      | '"' => (parseStringBody r).map fun pr => ('"' :: pr.1, pr.2)
      | '\\' => (parseStringBody r).map fun pr => ('\\' :: pr.1, pr.2)
      | '/' => (parseStringBody r).map fun pr => ('/' :: pr.1, pr.2)
      | 'b' => (parseStringBody r).map fun pr => (Char.ofNat 8 :: pr.1, pr.2)
      | 'f' => (parseStringBody r).map fun pr => (Char.ofNat 12 :: pr.1, pr.2)
      | 'n' => (parseStringBody r).map fun pr => ('\n' :: pr.1, pr.2)
      | 'r' => (parseStringBody r).map fun pr => ('\r' :: pr.1, pr.2)
      | 't' => (parseStringBody r).map fun pr => ('\t' :: pr.1, pr.2)
      | _ => none
  | c :: r =>
      if c.toNat < 32 then none
      else (parseStringBody r).map fun pr => (c :: pr.1, pr.2)
termination_by s => s.length
decreasing_by all_goals (simp only [List.length_cons]; omega)

/-- Whether a character is a decimal digit (`0`–`9`). -/
def isDig (c : Char) : Bool :=
  48 ≤ c.toNat && c.toNat ≤ 57

/-- Parse an unsigned JSON integer.  Like Python's number scanner, a
leading `0` is the whole numeral (so `007` parses as `0` with `07`
remaining, which a context then rejects); otherwise the maximal run of
digits is taken. -/
def parsePos : List Char → Option (Nat × List Char)
  | [] => none
  | c :: r =>
      if c = '0' then some (0, r)
      else if isDig c then
        some (charsToNat ((c :: r).takeWhile isDig), (c :: r).dropWhile isDig)
      else none

/-- Parse a JSON integer with optional leading minus sign. -/
def parseNumber (s : List Char) : Option (PyVal × List Char) :=
  match s with
  | [] => none
  | c :: r =>
      if c = '-' then (parsePos r).map fun pr => (.int (-(pr.1 : Int)), pr.2)
      else (parsePos (c :: r)).map fun pr => (.int (pr.1 : Int), pr.2)

mutual
/-- Fueled recursive-descent JSON value parser, embedding the scanner of
Python's `json.loads`: skip whitespace, then dispatch on the first
character to object / array / string / literal / number.  Fuel bounds the
recursion depth; every recursive step decreases it. -/
def parseVal : Nat → List Char → Option (PyVal × List Char)
  | 0, _ => none
  | fuel + 1, s =>
    match skipWs s with
    | [] => none
    | c :: r =>
      if c = '{' then
        let r1 := skipWs r
        if r1.head? = some '}' then some (.dict [], r1.tail)
        else (parseMembers fuel r1).map fun pr => (.dict pr.1, pr.2)
      else if c = '[' then
        let r1 := skipWs r
        if r1.head? = some ']' then some (.list [], r1.tail)
        else (parseItems fuel r1).map fun pr => (.list pr.1, pr.2)
      else if c = '"' then (parseStringBody r).map fun pr => (.str ⟨pr.1⟩, pr.2)
      else if c = 't' then
        match r with
        | 'r' :: 'u' :: 'e' :: r2 => some (.bool true, r2)
        | _ => none
      else if c = 'f' then
        match r with
        | 'a' :: 'l' :: 's' :: 'e' :: r2 => some (.bool false, r2)
        | _ => none
      else if c = 'n' then
        match r with
        | 'u' :: 'l' :: 'l' :: r2 => some (.null, r2)
        | _ => none
      else parseNumber (c :: r)

/-- Parse the elements of a non-empty array (the input starts at the first
element); after each element, a comma continues and `]` closes. -/
def parseItems : Nat → List Char → Option (List PyVal × List Char)
  | 0, _ => none
  | fuel + 1, s =>
    match parseVal fuel s with
    | none => none
    | some (v, r) =>
      match skipWs r with
      | [] => none
      | c :: r2 =>
        if c = ',' then (parseItems fuel r2).map fun pr => (v :: pr.1, pr.2)
        else if c = ']' then some ([v], r2)
        else none

/-- Parse the members of a non-empty object (the input starts at the first
key); after each member, a comma continues and `}` closes. -/
def parseMembers : Nat → List Char → Option (List (String × PyVal) × List Char)
  | 0, _ => none
  | fuel + 1, s =>
    match skipWs s with
    | [] => none
    | c0 :: r =>
      if c0 = '"' then
        match parseStringBody r with
        | none => none
        | some (kcs, r1) =>
          match skipWs r1 with
          | [] => none
          | c1 :: r2 =>
            if c1 = ':' then
              match parseVal fuel r2 with
              | none => none
              | some (v, r3) =>
                match skipWs r3 with
                | [] => none
                | c2 :: r4 =>
                  if c2 = ',' then
                    (parseMembers fuel r4).map fun pr => ((⟨kcs⟩, v) :: pr.1, pr.2)
                  else if c2 = '}' then some ([(⟨kcs⟩, v)], r4)
                  else none
            else none
      else none
end

/-- Embedding of `json.loads` on full file content: parse one value, then
require only whitespace to remain; parse failures are `ValueError`s
(Python's `json.JSONDecodeError` is a `ValueError` subclass).  The fuel
`s.length + 1` is enough for any input the parser can consume, standing in
for Python's unbounded (stack-limited) recursion. -/
def json_loads (s : List Char) : Except PyErr PyVal :=
  match parseVal (s.length + 1) s with
  | some (v, rest) =>
      if skipWs rest = [] then .ok v
      else .error (.valueErr "Extra data")
  | none => .error (.valueErr "Expecting value")

/-- A fallback encoder, as `json.dump` accepts through its `default`
argument: called on a value the serializer cannot natively represent, it
either returns a replacement value (which the serializer then serializes)
or raises. -/
def Encoder := PyVal → Except PyErr PyVal

mutual
/-- Embedding of `json.dump`'s serializer with a fallback encoder `enc`.
Native values are laid out exactly as `serVal` does; for a non-native
value the encoder is consulted and its result serialized in turn.  Errors
carry the output prefix already written to the stream when they occurred
(observable through a non-atomic write's truncated target).  The fuel,
consumed at each recursion step, models Python's recursion limit; an
encoder that keeps returning non-native values exhausts it
(`RecursionError`). -/
def dumpVal (enc : Encoder) (ea : Bool) (ind : Option Int) :
    Nat → Nat → PyVal → Except (PyErr × List Char) (List Char)
  | _, _, .int n => .ok (intToChars n)
  | _, _, .str s => .ok ('"' :: (escChars ea s.data ++ ['"']))
  | _, _, .bool false => .ok ('f' :: ['a', 'l', 's', 'e'])
  | _, _, .null => .ok ('n' :: ['u', 'l', 'l'])
  | _, _, .bool true => .ok ('t' :: ['r', 'u', 'e'])
  | _, _, .list [] => .ok ['[', ']']
  | 0, _, .list (_ :: _) => .error (.recursionErr, [])
  | fuel + 1, lvl, .list (x :: xs) =>
      match dumpVal enc ea ind fuel (lvl + 1) x with
      | .error (e, part) => .error (e, '[' :: (sp ind (lvl + 1) ++ part))
      | .ok o1 =>
        match dumpItems enc ea ind fuel (lvl + 1) xs with
        | .error (e, part) => .error (e, '[' :: (sp ind (lvl + 1) ++ o1 ++ part))
        | .ok o2 =>
            .ok ('[' :: (sp ind (lvl + 1) ++ o1 ++ o2 ++ sp ind lvl ++ [']']))
  | _, _, .dict [] => .ok ['{', '}']
  | 0, _, .dict (_ :: _) => .error (.recursionErr, [])
  | fuel + 1, lvl, .dict ((k, v) :: es) =>
      match dumpVal enc ea ind fuel (lvl + 1) v with
      | .error (e, part) =>
          .error (e, '{' :: (sp ind (lvl + 1) ++ keyChars ea k ++ part))
      | .ok o1 =>
        match dumpMembers enc ea ind fuel (lvl + 1) es with
        | .error (e, part) =>
            .error (e, '{' :: (sp ind (lvl + 1) ++ keyChars ea k ++ o1 ++ part))
        | .ok o2 =>
            .ok ('{' :: (sp ind (lvl + 1) ++ keyChars ea k ++ o1 ++ o2 ++
              sp ind lvl ++ ['}']))
  | 0, _, _ => .error (.recursionErr, [])
  | fuel + 1, lvl, v =>
      match enc v with
      | .error e => .error (e, [])
      | .ok v2 => dumpVal enc ea ind fuel lvl v2

/-- Serialize the remaining items of a non-empty array. -/
def dumpItems (enc : Encoder) (ea : Bool) (ind : Option Int) :
    Nat → Nat → List PyVal → Except (PyErr × List Char) (List Char)
  | _, _, [] => .ok []
  | 0, _, _ :: _ => .error (.recursionErr, [])
  | fuel + 1, lvl, x :: xs =>
      match dumpVal enc ea ind fuel lvl x with
      | .error (e, part) => .error (e, itemSep ind lvl ++ part)
      | .ok o1 =>
        match dumpItems enc ea ind fuel lvl xs with
        | .error (e, part) => .error (e, itemSep ind lvl ++ o1 ++ part)
        | .ok o2 => .ok (itemSep ind lvl ++ o1 ++ o2)

/-- Serialize the remaining members of a non-empty object. -/
def dumpMembers (enc : Encoder) (ea : Bool) (ind : Option Int) :
    Nat → Nat → List (String × PyVal) → Except (PyErr × List Char) (List Char)
  | _, _, [] => .ok []
  | 0, _, _ :: _ => .error (.recursionErr, [])
  | fuel + 1, lvl, (k, v) :: es =>
      match dumpVal enc ea ind fuel lvl v with
      | .error (e, part) => .error (e, itemSep ind lvl ++ keyChars ea k ++ part)
      | .ok o1 =>
        match dumpMembers enc ea ind fuel lvl es with
        | .error (e, part) =>
            .error (e, itemSep ind lvl ++ keyChars ea k ++ o1 ++ part)
        | .ok o2 => .ok (itemSep ind lvl ++ keyChars ea k ++ o1 ++ o2)
end

/-- Insert an integer into a sorted list (ascending). -/
def insertInt (n : Int) : List Int → List Int
  | [] => [n]
  | m :: r => if n < m then n :: m :: r else m :: insertInt n r

/-- Sort a list of integers ascending, as Python's `sorted` orders them. -/
def sortInts (xs : List Int) : List Int := xs.foldr insertInt []

/-- Insert a string into a sorted list (ascending lexicographic). -/
def insertStr (s : String) : List String → List String
  | [] => [s]
  | t :: r => if s < t then s :: t :: r else t :: insertStr s r

/-- Sort a list of strings ascending, as Python's `sorted` orders them. -/
def sortStrs (xs : List String) : List String := xs.foldr insertStr []

/-- Whether every element is an embedded `int`. -/
def allInts (xs : List PyVal) : Bool :=
  xs.all fun v => match v with | .int _ => true | _ => false

/-- Whether every element is an embedded `str`. -/
def allStrs (xs : List PyVal) : Bool :=
  xs.all fun v => match v with | .str _ => true | _ => false

/-- The integer carried by an `int` value (0 otherwise; used only under
`allInts`). -/
def getIntD : PyVal → Int
  | .int n => n
  | _ => 0

/-- The string carried by a `str` value (empty otherwise; used only under
`allStrs`). -/
def getStrD : PyVal → String
  | .str s => s
  | _ => ""

/-- Embedding of `sorted(value)` on a set's elements: succeeds when the
elements are mutually orderable (modelled: all ints, or all strings),
returning them ascending; `none` embeds `sorted` raising `TypeError`, in
which case `_json_default` falls back to `list(value)`. -/
def trySorted (xs : List PyVal) : Option (List PyVal) :=
  if allInts xs then some ((sortInts (xs.map getIntD)).map PyVal.int)
  else if allStrs xs then some ((sortStrs (xs.map getStrD)).map PyVal.str)
  else none

/-- `getattr(value, "to_string", None)` when callable: the probe outcome
of the duck-typed `to_string` method. -/
def tsOf : PyVal → Option (Option String)
  | .obj ts _ _ _ _ => ts
  | _ => none

/-- Probe outcome of the duck-typed `to_wkt` method. -/
def twktOf : PyVal → Option (Option String)
  | .obj _ twkt _ _ _ => twkt
  | _ => none

/-- Probe outcome of the duck-typed `to_epsg` method (the inner layer
distinguishes returning `None` from returning a code). -/
def tepsgOf : PyVal → Option (Option (Option Int))
  | .obj _ _ tepsg _ _ => tepsg
  | _ => none

/-- Probe outcome of the duck-typed `item` method. -/
def itmOf : PyVal → Option (Option PyVal)
  | .obj _ _ _ itm _ => itm
  | _ => none

mutual
/-- Embedding of Python's `str(value)` / `repr(value)` on the embedded
value forms, as the last resort of `_json_default`.  The layout follows
Python's container `repr`s (string quoting approximated with double
quotes). -/
def pyStr : PyVal → String
  | .null => "None"
  | .bool true => "True"
  | .bool false => "False"
  | .int n => toString n
  | .str s => "\"" ++ s ++ "\""
  | .list xs => "[" ++ reprItems xs ++ "]"
  | .dict es => "\x7b" ++ reprEntries es ++ "\x7d"
  | .path s => s
  | .set [] => "set()"
  | .set (x :: xs) => "\x7b" ++ reprItems (x :: xs) ++ "\x7d"
  | .frozenset [] => "frozenset()"
  | .frozenset (x :: xs) => "frozenset(\x7b" ++ reprItems (x :: xs) ++ "\x7d)"
  | .obj _ _ _ _ rep => rep

/-- Comma-separated element representations. -/
def reprItems : List PyVal → String
  | [] => ""
  | [x] => pyStr x
  | x :: y :: xs => pyStr x ++ ", " ++ reprItems (y :: xs)

/-- Comma-separated `key: value` representations. -/
def reprEntries : List (String × PyVal) → String
  | [] => ""
  | [(k, v)] => "\"" ++ k ++ "\": " ++ pyStr v
  | (k, v) :: e :: es => "\"" ++ k ++ "\": " ++ pyStr v ++ ", " ++ reprEntries (e :: es)
end

/-- Embedding of `_json_default` (`file_io.py` lines 113–162): the default
fallback serializer.  Tries, in order: `pathlib.Path` → its string form;
`set` → sorted elements (arbitrary order if unorderable); a callable
`to_string` (skipped if absent, tolerated if raising); a callable `to_wkt`
likewise; a callable `to_epsg`, used only when it returns a non-`None`
code, producing `"EPSG:<code>"`; a callable `item` returning the native
scalar; finally `str(value)`. -/
def _json_default (value : PyVal) : PyVal :=
  match value with
  | .path s => .str s
  | .set xs =>
      (match trySorted xs with
       | some ys => .list ys
       | none => .list xs)
  | _ =>
    match tsOf value with
    | some (some s) => .str s
    | _ =>
      match twktOf value with
      | some (some w) => .str w
      | _ =>
        match tepsgOf value with
        | some (some (some code)) => .str ("EPSG:" ++ toString code)
        | _ =>
          match itmOf value with
          | some (some v2) => v2
          | _ => .str (pyStr value)

/-- `_json_default` as an `Encoder`: it never raises (its last resort is
string conversion). -/
def jsonDefaultEnc : Encoder := fun v => .ok (_json_default v)

/-- A file path split as the source's `Path` is used: the parent directory
(as a component list) and the file name. -/
structure FPath where
  parent : List String
  name : String
deriving DecidableEq

/-- The filesystem as the writer and reader observe it: which directories
exist, and the text content of each (directory, file name). -/
structure FS where
  dirs : List String → Bool
  files : List String → String → Option (List Char)

/-- Create or truncate-and-write a file. -/
def FS.setFile (fs : FS) (d : List String) (n : String) (c : List Char) : FS :=
  { fs with files := fun d2 n2 => if d2 = d ∧ n2 = n then some c else fs.files d2 n2 }

/-- Remove a file (`unlink` with `missing_ok`). -/
def FS.delFile (fs : FS) (d : List String) (n : String) : FS :=
  { fs with files := fun d2 n2 => if d2 = d ∧ n2 = n then none else fs.files d2 n2 }

/-- `path.parent.mkdir(parents=True, exist_ok=True)`: every ancestor
(prefix) of the directory comes to exist; directories that already exist
are untouched and no error is raised. -/
def mkdirParents (dirs : List String → Bool) (d : List String) :
    List String → Bool :=
  fun q => dirs q || q.isPrefixOf d

/-- The name `NamedTemporaryFile` gives the temporary file, following the
source's `prefix=f".{path.name}."` and `suffix=".tmp"` with a random
middle part. -/
def tmpName (p : FPath) (rand : String) : String :=
  "." ++ p.name ++ "." ++ rand ++ ".tmp"

/-- Injected faults for the steps whose failure the spec discusses: the
durability barrier (`os.fsync`) and the final `os.replace`.  (A
serialization failure needs no injection: it arises from the encoder or
from fuel exhaustion.) -/
structure Fault where
  fsync : Option PyErr
  replace : Option PyErr
deriving DecidableEq

/-- No injected faults. -/
def noFault : Fault := ⟨none, none⟩

/-- Embedding of `read_json` (`file_io.py` lines 17–33): raise
`FileNotFoundError` if the path does not exist, otherwise open with the
given text encoding, parse the whole content as JSON and return the
parsed value.  (File content is modelled at text level, so the encoding
parameter is carried but does not transform the content.) -/
def read_json (fs : FS) (p : FPath) (_encoding : String) : Except PyErr PyVal :=
  match fs.files p.parent p.name with
  | none => .error (.fileNotFound ("JSON file not found: " ++ p.name))
  | some content => json_loads content

/-- Embedding of `write_json` (`file_io.py` lines 36–110).  Mirrors the
source step for step: optional parent-directory creation; non-atomic mode
opens the target directly (truncating; a serialization failure leaves the
partial output behind); atomic mode creates a `NamedTemporaryFile` in the
target's directory (failing like the source with `FileNotFoundError` when
that directory is missing), serializes into it, appends the newline,
fsyncs, and on any failure in that block closes and unlinks the temporary
file and re-raises, else closes it and `os.replace`s it over the target.
`fuel` is the serializer's recursion budget, `rand` the random part of the
temporary name, `fault` the injected step faults. -/
def write_json (fs : FS) (p : FPath) (data : PyVal) (_encoding : String)
    (indent : Option Int) (ensure_ascii : Bool) (create_parents : Bool)
    (atomic : Bool) (dflt : Option Encoder) (fuel : Nat) (rand : String)
    (fault : Fault) : Except PyErr Unit × FS :=
  let fs1 := if create_parents then
    { fs with dirs := mkdirParents fs.dirs p.parent } else fs
  if atomic = false then
    if fs1.dirs p.parent = false then
      (.error (.fileNotFound "No such file or directory"), fs1)
    else
      match dumpVal (dflt.getD jsonDefaultEnc) ensure_ascii indent fuel 0 data with
      | .error (e, part) => (.error e, fs1.setFile p.parent p.name part)
      | .ok out => (.ok (), fs1.setFile p.parent p.name (out ++ ['\n']))
  else
    if fs1.dirs p.parent = false then
      (.error (.fileNotFound "No such file or directory"), fs1)
    else
      let tn := tmpName p rand
      let fs2 := fs1.setFile p.parent tn []
      match dumpVal (dflt.getD jsonDefaultEnc) ensure_ascii indent fuel 0 data with
      | .error (e, part) =>
          (.error e, (fs2.setFile p.parent tn part).delFile p.parent tn)
      | .ok out =>
        match fault.fsync with
        | some e =>
            (.error e, (fs2.setFile p.parent tn (out ++ ['\n'])).delFile p.parent tn)
        | none =>
          let fs3 := fs2.setFile p.parent tn (out ++ ['\n'])
          match fault.replace with
          | some e => (.error e, fs3)
          | none =>
              (.ok (), (fs3.delFile p.parent tn).setFile p.parent p.name (out ++ ['\n']))

/-- The kwargs `_client_kwargs_for_uri` builds: the raw server-selection
timeout value (the source converts it with `int(...)`; the conversion is
not modelled) and the optional TLS CA bundle path. -/
structure MongoKwargs where
  timeoutRaw : String
  tlsCAFile : Option String
deriving DecidableEq

/-- The process environment and library availability `mongo.py` reads:
environment variables (after any `.env` loading) and whether `certifi`
can be imported (and what `certifi.where()` returns). -/
structure MongoEnv where
  env : String → Option String
  certifiAvailable : Bool
  certifiWhere : String

/-- Embedding of `get_mongo_uri`: the `MONGO_URI` variable, defaulting to
the local instance. -/
def get_mongo_uri (E : MongoEnv) : String :=
  (E.env "MONGO_URI").getD "mongodb://localhost:27017"

/-- Embedding of `_client_kwargs_for_uri`: a server-selection timeout from
the environment, and a CA bundle for `mongodb+srv` URIs or when TLS is
forced, provided `certifi` is importable. -/
def _client_kwargs_for_uri (E : MongoEnv) (uri : String) : MongoKwargs :=
  let is_srv := uri.startsWith "mongodb+srv://"
  let force_tls := ((E.env "MONGO_FORCE_TLS").getD "0") ∈ ["1", "true", "True"]
  { timeoutRaw := (E.env "MONGO_SERVER_SELECTION_TIMEOUT_MS").getD "5000",
    tlsCAFile :=
      if (is_srv || force_tls) && E.certifiAvailable then some E.certifiWhere
      else none }

/-- A constructed driver client: the URI it was created with and the
kwargs passed to the driver. -/
structure MClient where
  uri : String
  kwargs : MongoKwargs
deriving DecidableEq

/-- Embedding of `_new_async_client`: resolve the URI (`uri or
get_mongo_uri()` — Python's `or` falls back on an empty string too) and
construct a fresh client. -/
def _new_async_client (E : MongoEnv) (uri : Option String) : MClient :=
  let mongo_uri :=
    match uri with
    | some u => if u = "" then get_mongo_uri E else u
    | none => get_mongo_uri E
  ⟨mongo_uri, _client_kwargs_for_uri E mongo_uri⟩

/-- Embedding of `_new_sync_client` (same resolution, PyMongo client). -/
def _new_sync_client (E : MongoEnv) (uri : Option String) : MClient :=
  let mongo_uri :=
    match uri with
    | some u => if u = "" then get_mongo_uri E else u
    | none => get_mongo_uri E
  ⟨mongo_uri, _client_kwargs_for_uri E mongo_uri⟩

/-- The module-level singletons of `mongo.py`. -/
structure MongoGlobals where
  asyncClient : Option MClient
  syncClient : Option MClient
deriving DecidableEq

/-- Embedding of `get_async_client`: create and cache on first use,
return the cached client afterwards. -/
def get_async_client (E : MongoEnv) (st : MongoGlobals) (uri : Option String) :
    MClient × MongoGlobals :=
  match st.asyncClient with
  | some c => (c, st)
  | none =>
      let c := _new_async_client E uri
      (c, { st with asyncClient := some c })

/-- Embedding of `close_async_client`: close and clear the cached client
if one is present, otherwise do nothing. -/
def close_async_client (st : MongoGlobals) : MongoGlobals :=
  match st.asyncClient with
  | some _ => { st with asyncClient := none }
  | none => st

/-- Embedding of `get_sync_client`. -/
def get_sync_client (E : MongoEnv) (st : MongoGlobals) (uri : Option String) :
    MClient × MongoGlobals :=
  match st.syncClient with
  | some c => (c, st)
  | none =>
      let c := _new_sync_client E uri
      (c, { st with syncClient := some c })

/-- Embedding of `close_sync_client`. -/
def close_sync_client (st : MongoGlobals) : MongoGlobals :=
  match st.syncClient with
  | some _ => { st with syncClient := none }
  | none => st

/-- Input that cannot extend a just-parsed value: empty, or not starting
with a digit (the serializer always follows a value with a separator,
bracket, or newline). -/
def safeRest (t : List Char) : Bool :=
  match t with
  | [] => true
  | c :: _ => ! isDig c

mutual
/-- Parser fuel sufficient for a value: `parseVal fuel` succeeds on the
value's serialized text whenever `FVal v ≤ fuel` (and `dumpVal` likewise
serializes it).  Scalars need one unit; containers add one per element. -/
def FVal : PyVal → Nat
  | .list xs => 1 + FItems xs
  | .dict es => 1 + FMembers es
  | _ => 1

/-- Fuel sufficient for an array's element list. -/
def FItems : List PyVal → Nat
  | [] => 0
  | x :: xs => 1 + FVal x + FItems xs

/-- Fuel sufficient for an object's member list. -/
def FMembers : List (String × PyVal) → Nat
  | [] => 0
  | (_, v) :: es => 1 + FVal v + FMembers es
end

theorem charVal_digitCh : ∀ d, d < 10 → charVal (digitCh d) = d := by decide

theorem isDig_digitCh : ∀ d, d < 10 → isDig (digitCh d) = true := by decide

theorem digitCh_ne_zero : ∀ d, d < 10 → d ≠ 0 → digitCh d ≠ '0' := by decide

/-- A digit character differs from any non-digit character. -/
theorem ne_of_isDig {c : Char} (d : Char) (h : isDig c = true)
    (hd : isDig d = false) : c ≠ d := by
  intro he
  rw [he, hd] at h
  exact Bool.false_ne_true h

/-- Digit characters are not JSON whitespace. -/
theorem isDig_not_ws {c : Char} (h : isDig c = true) : isWs c = false := by
  by_contra hw
  rw [Bool.not_eq_false] at hw
  simp only [isWs, Bool.or_eq_true, decide_eq_true_eq] at hw
  rcases hw with ((hw | hw) | hw) | hw <;> (subst hw; revert h; decide)

theorem natToChars_ne_nil (n : Nat) : natToChars n ≠ [] := by
  rw [natToChars]
  split
  · simp
  · simp

theorem natToChars_digits (n : Nat) : ∀ c ∈ natToChars n, isDig c = true := by
  induction n using Nat.strong_induction_on with
  | _ n ih =>
    rw [natToChars]
    split
    · intro c hc
      rw [List.mem_singleton] at hc
      subst hc
      exact isDig_digitCh n (by omega)
    · intro c hc
      rw [List.mem_append] at hc
      rcases hc with hc | hc
      · exact ih (n / 10) (Nat.div_lt_self (by omega) (by omega)) c hc
      · rw [List.mem_singleton] at hc
        subst hc
        exact isDig_digitCh (n % 10) (Nat.mod_lt _ (by omega))

theorem charsToNat_natToChars (n : Nat) : charsToNat (natToChars n) = n := by
  induction n using Nat.strong_induction_on with
  | _ n ih =>
    rw [natToChars]
    split
    · simp only [charsToNat, List.foldl_cons, List.foldl_nil]
      rw [charVal_digitCh n (by omega)]
      omega
    · rename_i h
      simp only [charsToNat, List.foldl_append, List.foldl_cons, List.foldl_nil]
      have h1 : List.foldl (fun a c => 10 * a + charVal c) 0 (natToChars (n / 10)) = n / 10 :=
        ih (n / 10) (Nat.div_lt_self (by omega) (by omega))
      rw [h1, charVal_digitCh (n % 10) (Nat.mod_lt _ (by omega))]
      omega

theorem natToChars_head_ne_zero {n : Nat} {c : Char} {t : List Char}
    (hn : n ≠ 0) (h : natToChars n = c :: t) : c ≠ '0' := by
  induction n using Nat.strong_induction_on generalizing c t with
  | _ n ih =>
    rw [natToChars] at h
    split at h
    · rename_i hlt
      rw [List.cons.injEq] at h
      rcases h with ⟨h1, _⟩
      subst h1
      exact digitCh_ne_zero n (by omega) hn
    · rename_i hge
      obtain ⟨c2, t2, h2⟩ : ∃ c2 t2, natToChars (n / 10) = c2 :: t2 := by
        cases hh : natToChars (n / 10) with
        | nil => exact absurd hh (natToChars_ne_nil _)
        | cons a b => exact ⟨a, b, rfl⟩
      rw [h2, List.cons_append, List.cons.injEq] at h
      rcases h with ⟨h1, _⟩
      subst h1
      exact ih (n / 10) (Nat.div_lt_self (by omega) (by omega)) (by omega) h2

theorem skipWs_cons_not_ws {c : Char} {t : List Char} (h : isWs c = false) :
    skipWs (c :: t) = c :: t := by
  simp [skipWs, h]

theorem skipWs_append {a : List Char} (b : List Char)
    (ha : ∀ c ∈ a, isWs c = true) : skipWs (a ++ b) = skipWs b := by
  induction a with
  | nil => rfl
  | cons c t ih =>
    simp only [List.cons_append, skipWs, ha c (List.mem_cons_self c t), if_true]
    exact ih fun x hx => ha x (List.mem_cons_of_mem c hx)

theorem sp_ws (ind : Option Int) (lvl : Nat) : ∀ c ∈ sp ind lvl, isWs c = true := by
  intro c hc
  cases ind with
  | none => simp [sp] at hc
  | some i =>
    simp only [sp, List.mem_cons] at hc
    rcases hc with hc | hc
    · subst hc; decide
    · rw [List.eq_of_mem_replicate hc]; decide

theorem takeWhile_append_of_all {p : Char → Bool} {A B : List Char}
    (hA : ∀ c ∈ A, p c = true) (hB : ∀ c t, B = c :: t → p c = false) :
    (A ++ B).takeWhile p = A ∧ (A ++ B).dropWhile p = B := by
  induction A with
  | nil =>
    cases B with
    | nil => exact ⟨rfl, rfl⟩
    | cons c t =>
      simp [List.takeWhile, List.dropWhile, hB c t rfl]
  | cons c A2 ih =>
    have hc := hA c (List.mem_cons_self c A2)
    have ih2 := ih fun x hx => hA x (List.mem_cons_of_mem c hx)
    simp [List.takeWhile, List.dropWhile, hc, ih2.1, ih2.2]

theorem parsePos_natToChars (n : Nat) (t : List Char) (ht : safeRest t = true) :
    parsePos (natToChars n ++ t) = some (n, t) := by
  have hB : ∀ c r, t = c :: r → isDig c = false := by
    intro c r hcr
    rw [hcr] at ht
    simpa [safeRest] using ht
  by_cases hn : n = 0
  · subst hn
    have h0 : natToChars 0 = ['0'] := by rw [natToChars]; rfl
    rw [h0]
    simp [parsePos]
  · obtain ⟨c, cs, hc⟩ : ∃ c cs, natToChars n = c :: cs := by
      cases hh : natToChars n with
      | nil => exact absurd hh (natToChars_ne_nil _)
      | cons a b => exact ⟨a, b, rfl⟩
    have hdig : isDig c = true :=
      natToChars_digits n c (by rw [hc]; exact List.mem_cons_self c cs)
    have hne0 : c ≠ '0' := natToChars_head_ne_zero hn hc
    have hspan := takeWhile_append_of_all (p := isDig) (A := natToChars n) (B := t)
      (natToChars_digits n) hB
    rw [hc] at hspan
    rw [hc, List.cons_append, parsePos]
    rw [if_neg hne0, if_pos hdig]
    rw [← List.cons_append, hspan.1, hspan.2, ← hc, charsToNat_natToChars]

theorem parseNumber_intToChars (n : Int) (t : List Char) (ht : safeRest t = true) :
    parseNumber (intToChars n ++ t) = some (.int n, t) := by
  rw [intToChars]
  split
  · rename_i hneg
    have habs : ((n.natAbs : Int)) = -n := by omega
    rw [List.cons_append]
    simp only [parseNumber]
    rw [if_pos trivial, parsePos_natToChars _ t ht]
    simp only [Option.map_some', habs, neg_neg]
  · rename_i hneg
    have habs : ((n.natAbs : Int)) = n := by omega
    obtain ⟨c, cs, hc⟩ : ∃ c cs, natToChars n.natAbs = c :: cs := by
      cases hh : natToChars n.natAbs with
      | nil => exact absurd hh (natToChars_ne_nil _)
      | cons a b => exact ⟨a, b, rfl⟩
    have hdig : isDig c = true := natToChars_digits _ c (by
      rw [hc]; exact List.mem_cons_self c cs)
    have hnm : c ≠ '-' := ne_of_isDig '-' hdig (by decide)
    rw [hc, List.cons_append]
    simp only [parseNumber]
    rw [if_neg hnm, ← List.cons_append, ← hc, parsePos_natToChars _ t ht]
    simp only [Option.map_some', habs]

theorem hexVal_hexCh : ∀ d, d < 16 → hexVal (hexCh d) = d := by decide

theorem isHexDigit_hexCh : ∀ d, d < 16 → isHexDigit (hexCh d) = true := by decide

theorem parseStringBody_raw (c : Char) (t : List Char) (h1 : c ≠ '"')
    (h2 : c ≠ '\\') (h3 : 32 ≤ c.toNat) :
    parseStringBody (c :: t) = (parseStringBody t).map fun pr => (c :: pr.1, pr.2) := by
  rw [parseStringBody.eq_def]
  split
  all_goals try (rename_i heq; simp at heq)
  case h_2 =>
    rename_i heq
    exact absurd heq.1 h1
  case h_3 =>
    rename_i a2 b2 c2 d2 e f g h r2 heq
    exact absurd heq.1 h2
  case h_4 =>
    rename_i a2 b2 c2 d2 r heq
    exact absurd heq.1 h2
  case h_5 =>
    rename_i hpr hs hq
    exact absurd heq.1 h2
  case h_6 =>
    rename_i hng hpair hsingle hesc heq
    obtain ⟨hh1, hh2⟩ := heq
    subst hh1
    subst hh2
    rw [if_neg (by omega)]

theorem parseStringBody_u_low (a b c d : Char) (t : List Char)
    (ha : isHexDigit a = true) (hb : isHexDigit b = true)
    (hc : isHexDigit c = true) (hd : isHexDigit d = true)
    (hlow : hexVal a * 4096 + hexVal b * 256 + hexVal c * 16 + hexVal d < 55296) :
    parseStringBody ('\\' :: 'u' :: a :: b :: c :: d :: t) =
      (parseStringBody t).map fun pr =>
        (Char.ofNat (hexVal a * 4096 + hexVal b * 256 + hexVal c * 16 + hexVal d) ::
          pr.1, pr.2) := by
  rw [parseStringBody.eq_def]
  split
  all_goals try (rename_i heq; simp at heq)
  case h_3 =>
    rename_i a2 b2 c2 d2 e f g h r2 heq
    obtain ⟨h1, h2, h3, h4, h5⟩ := heq
    subst h1
    subst h2
    subst h3
    subst h4
    have hni : ¬(55296 ≤ hexVal a * 4096 + hexVal b * 256 + hexVal c * 16 + hexVal d ∧
        hexVal a * 4096 + hexVal b * 256 + hexVal c * 16 + hexVal d ≤ 56319) := by omega
    simp only [ha, hb, hc, hd, and_self, if_true, hni, if_false]
    rw [← h5]
  case h_4 =>
    rename_i a2 b2 c2 d2 r heq
    obtain ⟨h1, h2, h3, h4, h5⟩ := heq
    subst h1
    subst h2
    subst h3
    subst h4
    simp only [ha, hb, hc, hd, and_self, if_true]
    rw [← h5]
  case h_5 =>
    rename_i hpr hs hq
    exact (hq a b c d t heq.1.symm heq.2.symm).elim
  case h_6 =>
    rename_i hng hpair hsingle hesc heq
    obtain ⟨h1, h2⟩ := heq
    exact (hesc a b c d t h1.symm h2.symm).elim

theorem parseStringBody_escChar (c : Char) (t : List Char) :
    parseStringBody (escChar false c ++ t) =
      (parseStringBody t).map fun pr => (c :: pr.1, pr.2) := by
  by_cases h1 : c = '"'
  · subst h1; simp [escChar, parseStringBody]
  by_cases h2 : c = '\\'
  · subst h2; simp [escChar, parseStringBody]
  by_cases h3 : c.toNat = 8
  · have hcc : Char.ofNat 8 = c := by rw [← h3, Char.ofNat_toNat]
    simp [escChar, h1, h2, h3, parseStringBody]
    rw [hcc]
  by_cases h4 : c.toNat = 9
  · have hcc : Char.ofNat 9 = c := by rw [← h4, Char.ofNat_toNat]
    have ht : '\t' = c := hcc
    simp [escChar, h1, h2, h3, h4, parseStringBody]
    rw [ht]
  by_cases h5 : c.toNat = 10
  · have hcc : Char.ofNat 10 = c := by rw [← h5, Char.ofNat_toNat]
    have ht : '\n' = c := hcc
    simp [escChar, h1, h2, h3, h4, h5, parseStringBody]
    rw [ht]
  by_cases h6 : c.toNat = 12
  · have hcc : Char.ofNat 12 = c := by rw [← h6, Char.ofNat_toNat]
    simp [escChar, h1, h2, h3, h4, h5, h6, parseStringBody]
    rw [hcc]
  by_cases h7 : c.toNat = 13
  · have hcc : Char.ofNat 13 = c := by rw [← h7, Char.ofNat_toNat]
    have ht : '\x0d' = c := hcc
    simp [escChar, h1, h2, h3, h4, h5, h6, h7, parseStringBody]
    rw [ht]
  by_cases h8 : c.toNat < 32
  · have he : escChar false c =
        ['\\', 'u', '0', '0', hexCh (c.toNat / 16), hexCh (c.toNat % 16)] := by
      rw [escChar]
      rw [if_neg h1, if_neg h2, if_neg h3, if_neg h4, if_neg h5, if_neg h6,
        if_neg h7, if_pos h8]
    rw [he]
    have hlow : hexVal '0' * 4096 + hexVal '0' * 256 + hexVal (hexCh (c.toNat / 16)) * 16 +
        hexVal (hexCh (c.toNat % 16)) < 55296 := by
      rw [hexVal_hexCh _ (by omega), hexVal_hexCh _ (Nat.mod_lt _ (by omega))]
      have : hexVal '0' = 0 := by decide
      rw [this]
      omega
    rw [List.cons_append, List.cons_append, List.cons_append, List.cons_append,
      List.cons_append, List.cons_append, List.nil_append]
    rw [parseStringBody_u_low _ _ _ _ t (by decide) (by decide)
      (isHexDigit_hexCh _ (by omega)) (isHexDigit_hexCh _ (Nat.mod_lt _ (by omega))) hlow]
    have hval : hexVal '0' * 4096 + hexVal '0' * 256 + hexVal (hexCh (c.toNat / 16)) * 16 +
        hexVal (hexCh (c.toNat % 16)) = c.toNat := by
      rw [hexVal_hexCh _ (by omega), hexVal_hexCh _ (Nat.mod_lt _ (by omega))]
      have : hexVal '0' = 0 := by decide
      rw [this]
      omega
    rw [hval, Char.ofNat_toNat]
  · have he : escChar false c = [c] := by
      rw [escChar]
      rw [if_neg h1, if_neg h2, if_neg h3, if_neg h4, if_neg h5, if_neg h6,
        if_neg h7, if_neg h8]
      simp
    rw [he, List.cons_append, List.nil_append]
    exact parseStringBody_raw c t h1 h2 (by omega)


/-- Unescaping inverts escaping: parsing a string body consisting of the
escaped characters followed by the closing quote yields the original
characters and the input after the quote. -/
theorem parseStringBody_escChars (cs : List Char) (t : List Char) :
    parseStringBody (escChars false cs ++ ('"' :: t)) = some (cs, t) := by
  induction cs with
  | nil =>
    rw [escChars, List.nil_append]
    simp [parseStringBody]
  | cons c cs ih =>
    rw [escChars, List.append_assoc, parseStringBody_escChar, ih]
    rfl

/-- The parse–print inversion property of a value: its serialized text
followed by anything that cannot extend it parses back to exactly the
value, for every indentation mode, nesting level and sufficient fuel. -/
def PSP (v : PyVal) : Prop :=
  ∀ ind lvl rest fuel, FVal v ≤ fuel → safeRest rest = true →
    parseVal fuel (serVal false ind lvl v ++ rest) = some (v, rest)

theorem parseVal_leading_ws {ws : List Char} (fuel : Nat) (t : List Char)
    (hws : ∀ c ∈ ws, isWs c = true) :
    parseVal fuel (ws ++ t) = parseVal fuel t := by
  cases fuel with
  | zero => rfl
  | succ f =>
    simp only [parseVal]
    rw [skipWs_append _ hws]

theorem safeRest_cons {c : Char} (t : List Char) (h : isDig c = false) :
    safeRest (c :: t) = true := by
  simp [safeRest, h]

theorem safeRest_sp_cons (ind : Option Int) (lvl : Nat) {c : Char}
    (t : List Char) (h : isDig c = false) :
    safeRest (sp ind lvl ++ c :: t) = true := by
  cases ind with
  | none => simpa [sp] using safeRest_cons t h
  | some i =>
    rw [sp, List.cons_append]
    exact safeRest_cons _ (by decide)

theorem safeRest_itemSep (ind : Option Int) (lvl : Nat) (t : List Char) :
    safeRest (itemSep ind lvl ++ t) = true := by
  cases ind with
  | none => simp [itemSep, safeRest, isDig]
  | some i => simp [itemSep, safeRest, isDig]

theorem nativeItems_mem {l : List PyVal} (h : nativeItems l = true) :
    ∀ y ∈ l, isNative y = true := by
  induction l with
  | nil => intro y hy; simp at hy
  | cons x xs ih =>
    rw [nativeItems, Bool.and_eq_true] at h
    intro y hy
    rw [List.mem_cons] at hy
    rcases hy with hy | hy
    · subst hy; exact h.1
    · exact ih h.2 y hy

theorem nativeMembers_mem {l : List (String × PyVal)} (h : nativeMembers l = true) :
    ∀ e ∈ l, isNative e.2 = true := by
  induction l with
  | nil => intro e he; simp at he
  | cons x xs ih =>
    obtain ⟨k, v⟩ := x
    rw [nativeMembers, Bool.and_eq_true] at h
    intro e he
    rw [List.mem_cons] at he
    rcases he with he | he
    · subst he; exact h.1
    · exact ih h.2 e he

/-- Every native value serializes to text whose first character is neither
whitespace nor a closing bracket. -/
theorem serVal_head_cons (ea : Bool) (ind : Option Int) (lvl : Nat)
    (v : PyVal) (hnat : isNative v = true) :
    ∃ c t, serVal ea ind lvl v = c :: t ∧ isWs c = false ∧ c ≠ ']' := by
  cases v with
  | null => exact ⟨'n', ['u', 'l', 'l'], by simp [serVal], by decide, by decide⟩
  | bool b =>
    cases b with
    | true => exact ⟨'t', ['r', 'u', 'e'], by simp [serVal], by decide, by decide⟩
    | false => exact ⟨'f', ['a', 'l', 's', 'e'], by simp [serVal], by decide, by decide⟩
  | int n =>
    by_cases hn : n < 0
    · refine ⟨'-', natToChars n.natAbs, ?_, by decide, by decide⟩
      simp [serVal, intToChars, hn]
    · obtain ⟨c, cs, hc⟩ : ∃ c cs, natToChars n.natAbs = c :: cs := by
        cases hh : natToChars n.natAbs with
        | nil => exact absurd hh (natToChars_ne_nil _)
        | cons a b => exact ⟨a, b, rfl⟩
      have hdig : isDig c = true := natToChars_digits _ c (by
        rw [hc]; exact List.mem_cons_self c cs)
      refine ⟨c, cs, ?_, isDig_not_ws hdig, ne_of_isDig ']' hdig (by decide)⟩
      simp [serVal, intToChars, hn, hc]
  | str s =>
    exact ⟨'"', escChars ea s.data ++ ['"'], by simp [serVal], by decide, by decide⟩
  | list xs =>
    cases xs with
    | nil => exact ⟨'[', [']'], by simp [serVal], by decide, by decide⟩
    | cons x xs2 =>
      exact ⟨'[', sp ind (lvl + 1) ++ serVal ea ind (lvl + 1) x ++
        serItems ea ind (lvl + 1) xs2 ++ sp ind lvl ++ [']'],
        by simp [serVal], by decide, by decide⟩
  | dict es =>
    cases es with
    | nil => exact ⟨'{', ['}'], by simp [serVal], by decide, by decide⟩
    | cons e es2 =>
      exact ⟨'{', sp ind (lvl + 1) ++ serEntry ea ind (lvl + 1) e ++
        serMembers ea ind (lvl + 1) es2 ++ sp ind lvl ++ ['}'],
        by simp [serVal], by decide, by decide⟩
  | path p => simp [isNative] at hnat
  | set xs => simp [isNative] at hnat
  | frozenset xs => simp [isNative] at hnat
  | obj a b c d e => simp [isNative] at hnat

theorem psp_null : PSP .null := by
  intro ind lvl rest fuel hfuel hsafe
  simp only [FVal] at hfuel
  obtain ⟨f, rfl⟩ : ∃ f, fuel = f + 1 := ⟨fuel - 1, by omega⟩
  rw [show serVal false ind lvl .null = ['n', 'u', 'l', 'l'] from by simp [serVal]]
  simp only [parseVal, List.cons_append, List.nil_append]
  rw [skipWs_cons_not_ws (by decide)]
  simp

theorem psp_bool (b : Bool) : PSP (.bool b) := by
  intro ind lvl rest fuel hfuel hsafe
  simp only [FVal] at hfuel
  obtain ⟨f, rfl⟩ : ∃ f, fuel = f + 1 := ⟨fuel - 1, by omega⟩
  cases b with
  | true =>
    rw [show serVal false ind lvl (.bool true) = ['t', 'r', 'u', 'e'] from by simp [serVal]]
    simp only [parseVal, List.cons_append, List.nil_append]
    rw [skipWs_cons_not_ws (by decide)]
    simp
  | false =>
    rw [show serVal false ind lvl (.bool false) = ['f', 'a', 'l', 's', 'e'] from by
      simp [serVal]]
    simp only [parseVal, List.cons_append, List.nil_append]
    rw [skipWs_cons_not_ws (by decide)]
    simp

theorem psp_int (n : Int) : PSP (.int n) := by
  intro ind lvl rest fuel hfuel hsafe
  simp only [FVal] at hfuel
  obtain ⟨f, rfl⟩ : ∃ f, fuel = f + 1 := ⟨fuel - 1, by omega⟩
  rw [show serVal false ind lvl (.int n) = intToChars n from by simp [serVal]]
  obtain ⟨c, cs, hc, hd⟩ : ∃ c cs, intToChars n = c :: cs ∧
      (isDig c = true ∨ c = '-') := by
    rw [intToChars]
    split
    · exact ⟨'-', natToChars n.natAbs, rfl, Or.inr rfl⟩
    · obtain ⟨c, cs, hcc⟩ : ∃ c cs, natToChars n.natAbs = c :: cs := by
        cases hh : natToChars n.natAbs with
        | nil => exact absurd hh (natToChars_ne_nil _)
        | cons a b => exact ⟨a, b, rfl⟩
      exact ⟨c, cs, hcc, Or.inl (natToChars_digits _ c (by
        rw [hcc]; exact List.mem_cons_self c cs))⟩
  have hnws : isWs c = false := by
    rcases hd with hd | hd
    · exact isDig_not_ws hd
    · subst hd; decide
  have hno : c ≠ '{' ∧ c ≠ '[' ∧ c ≠ '"' ∧ c ≠ 't' ∧ c ≠ 'f' ∧ c ≠ 'n' := by
    rcases hd with hd | hd
    · exact ⟨ne_of_isDig _ hd (by decide), ne_of_isDig _ hd (by decide),
        ne_of_isDig _ hd (by decide), ne_of_isDig _ hd (by decide),
        ne_of_isDig _ hd (by decide), ne_of_isDig _ hd (by decide)⟩
    · subst hd; exact ⟨by decide, by decide, by decide, by decide, by decide, by decide⟩
  rw [hc, List.cons_append]
  simp only [parseVal]
  rw [skipWs_cons_not_ws hnws]
  dsimp only
  rw [if_neg hno.1, if_neg hno.2.1, if_neg hno.2.2.1, if_neg hno.2.2.2.1,
    if_neg hno.2.2.2.2.1, if_neg hno.2.2.2.2.2]
  rw [← List.cons_append, ← hc, parseNumber_intToChars n rest hsafe]

theorem psp_str (s : String) : PSP (.str s) := by
  intro ind lvl rest fuel hfuel hsafe
  simp only [FVal] at hfuel
  obtain ⟨f, rfl⟩ : ∃ f, fuel = f + 1 := ⟨fuel - 1, by omega⟩
  rw [show serVal false ind lvl (.str s) = '"' :: (escChars false s.data ++ ['"'])
    from by simp [serVal]]
  simp only [parseVal, List.cons_append]
  rw [skipWs_cons_not_ws (by decide)]
  dsimp only
  rw [if_neg (by decide), if_neg (by decide), if_pos rfl]
  rw [List.append_assoc, List.singleton_append, parseStringBody_escChars]
  rfl

theorem parseItems_ser (ind : Option Int) (lvl : Nat) (close rest : List Char)
    (hclose : skipWs close = ']' :: rest) (hsafe : safeRest close = true) :
    ∀ (xs : List PyVal) (x : PyVal) (ws : List Char) (fuel : Nat),
      (∀ y ∈ x :: xs, PSP y) →
      (∀ c ∈ ws, isWs c = true) →
      FItems (x :: xs) ≤ fuel →
      parseItems fuel
          (ws ++ (serVal false ind lvl x ++ (serItems false ind lvl xs ++ close))) =
        some (x :: xs, rest) := by
  intro xs
  induction xs with
  | nil =>
    intro x ws fuel hall hws hfuel
    simp only [FItems, FVal] at hfuel
    obtain ⟨f, rfl⟩ : ∃ f, fuel = f + 1 := ⟨fuel - 1, by omega⟩
    simp only [parseItems]
    rw [parseVal_leading_ws f _ hws]
    rw [show serItems false ind lvl ([] : List PyVal) = [] from by simp [serItems],
      List.nil_append]
    rw [hall x (List.mem_cons_self x []) ind lvl close f (by omega) hsafe]
    dsimp only
    rw [hclose]
    dsimp only
    rw [if_neg (by decide), if_pos rfl]
  | cons y ys ih =>
    intro x ws fuel hall hws hfuel
    simp only [FItems, FVal] at hfuel
    obtain ⟨f, rfl⟩ : ∃ f, fuel = f + 1 := ⟨fuel - 1, by omega⟩
    simp only [parseItems]
    rw [parseVal_leading_ws f _ hws]
    have hsafe2 : safeRest (serItems false ind lvl (y :: ys) ++ close) = true := by
      rw [show serItems false ind lvl (y :: ys) =
        itemSep ind lvl ++ (serVal false ind lvl y ++ serItems false ind lvl ys)
        from by simp [serItems]]
      rw [List.append_assoc]
      exact safeRest_itemSep ind lvl _
    rw [hall x (List.mem_cons_self x (y :: ys)) ind lvl _ f (by omega) hsafe2]
    dsimp only
    rw [show serItems false ind lvl (y :: ys) =
      itemSep ind lvl ++ (serVal false ind lvl y ++ serItems false ind lvl ys)
      from by simp [serItems]]
    cases ind with
    | none =>
      rw [show itemSep none lvl = [',', ' '] from rfl]
      simp only [List.cons_append, List.append_assoc]
      rw [skipWs_cons_not_ws (by decide)]
      dsimp only
      rw [if_pos rfl]
      simp only [List.nil_append]
      rw [show (' ' :: (serVal false none lvl y ++ (serItems false none lvl ys ++ close)))
        = [' '] ++ (serVal false none lvl y ++ (serItems false none lvl ys ++ close))
        from rfl]
      rw [ih y [' '] f (fun z hz => hall z (List.mem_cons_of_mem x hz))
        (by intro c hc; simp at hc; subst hc; decide)
        (by simp only [FItems]; omega)]
      rfl
    | some i =>
      rw [show itemSep (some i) lvl = ',' :: sp (some i) lvl from rfl]
      simp only [List.cons_append, List.append_assoc]
      rw [skipWs_cons_not_ws (by decide)]
      dsimp only
      rw [if_pos rfl]
      rw [ih y (sp (some i) lvl) f (fun z hz => hall z (List.mem_cons_of_mem x hz))
        (sp_ws _ _)
        (by simp only [FItems]; omega)]
      rfl

theorem safeRest_serMembers (ind : Option Int) (lvl : Nat)
    (es : List (String × PyVal)) (close : List Char)
    (hsafe : safeRest close = true) :
    safeRest (serMembers false ind lvl es ++ close) = true := by
  cases es with
  | nil => simpa [serMembers] using hsafe
  | cons e es2 =>
    rw [show serMembers false ind lvl (e :: es2) =
      itemSep ind lvl ++ (serEntry false ind lvl e ++ serMembers false ind lvl es2)
      from by simp [serMembers]]
    rw [List.append_assoc]
    exact safeRest_itemSep ind lvl _

theorem safeRest_serItems (ind : Option Int) (lvl : Nat)
    (xs : List PyVal) (close : List Char) (hsafe : safeRest close = true) :
    safeRest (serItems false ind lvl xs ++ close) = true := by
  cases xs with
  | nil => simpa [serItems] using hsafe
  | cons x xs2 =>
    rw [show serItems false ind lvl (x :: xs2) =
      itemSep ind lvl ++ (serVal false ind lvl x ++ serItems false ind lvl xs2)
      from by simp [serItems]]
    rw [List.append_assoc]
    exact safeRest_itemSep ind lvl _

theorem parseMembers_ser (ind : Option Int) (lvl : Nat) (close rest : List Char)
    (hclose : skipWs close = '}' :: rest) (hsafe : safeRest close = true) :
    ∀ (es : List (String × PyVal)) (k : String) (v : PyVal) (ws : List Char)
      (fuel : Nat),
      PSP v →
      (∀ e ∈ es, PSP e.2) →
      (∀ c ∈ ws, isWs c = true) →
      FMembers ((k, v) :: es) ≤ fuel →
      parseMembers fuel
          (ws ++ (keyChars false k ++ (serVal false ind lvl v ++
            (serMembers false ind lvl es ++ close)))) =
        some ((k, v) :: es, rest) := by
  intro es
  induction es with
  | nil =>
    intro k v ws fuel hv hall hws hfuel
    simp only [FMembers] at hfuel
    obtain ⟨f, rfl⟩ : ∃ f, fuel = f + 1 := ⟨fuel - 1, by omega⟩
    simp only [parseMembers]
    rw [skipWs_append _ hws]
    rw [show keyChars false k ++ (serVal false ind lvl v ++
        (serMembers false ind lvl ([] : List (String × PyVal)) ++ close))
      = '"' :: (escChars false k.data ++
        ('"' :: ':' :: ' ' :: (serVal false ind lvl v ++
          (serMembers false ind lvl ([] : List (String × PyVal)) ++ close))))
      from by simp [keyChars]]
    rw [skipWs_cons_not_ws (by decide)]
    dsimp only
    rw [if_pos rfl, parseStringBody_escChars]
    dsimp only
    rw [skipWs_cons_not_ws (by decide)]
    dsimp only
    rw [if_pos rfl]
    rw [show (' ' :: (serVal false ind lvl v ++
        (serMembers false ind lvl ([] : List (String × PyVal)) ++ close)))
      = [' '] ++ (serVal false ind lvl v ++
        (serMembers false ind lvl ([] : List (String × PyVal)) ++ close))
      from rfl]
    rw [parseVal_leading_ws f _ (by intro c hc; simp at hc; subst hc; decide)]
    rw [hv ind lvl _ f (by omega)
      (safeRest_serMembers ind lvl [] close hsafe)]
    dsimp only
    rw [show serMembers false ind lvl ([] : List (String × PyVal)) = []
      from by simp [serMembers], List.nil_append, hclose]
    dsimp only
    rw [if_neg (by decide), if_pos rfl]
  | cons e2 es2 ih =>
    obtain ⟨k2, v2⟩ := e2
    intro k v ws fuel hv hall hws hfuel
    simp only [FMembers] at hfuel
    obtain ⟨f, rfl⟩ : ∃ f, fuel = f + 1 := ⟨fuel - 1, by omega⟩
    simp only [parseMembers]
    rw [skipWs_append _ hws]
    rw [show keyChars false k ++ (serVal false ind lvl v ++
        (serMembers false ind lvl ((k2, v2) :: es2) ++ close))
      = '"' :: (escChars false k.data ++
        ('"' :: ':' :: ' ' :: (serVal false ind lvl v ++
          (serMembers false ind lvl ((k2, v2) :: es2) ++ close))))
      from by simp [keyChars]]
    rw [skipWs_cons_not_ws (by decide)]
    dsimp only
    rw [if_pos rfl, parseStringBody_escChars]
    dsimp only
    rw [skipWs_cons_not_ws (by decide)]
    dsimp only
    rw [if_pos rfl]
    rw [show (' ' :: (serVal false ind lvl v ++
        (serMembers false ind lvl ((k2, v2) :: es2) ++ close)))
      = [' '] ++ (serVal false ind lvl v ++
        (serMembers false ind lvl ((k2, v2) :: es2) ++ close))
      from rfl]
    rw [parseVal_leading_ws f _ (by intro c hc; simp at hc; subst hc; decide)]
    rw [hv ind lvl _ f (by omega)
      (safeRest_serMembers ind lvl _ close hsafe)]
    dsimp only
    rw [show serMembers false ind lvl ((k2, v2) :: es2) =
      itemSep ind lvl ++ (keyChars false k2 ++ (serVal false ind lvl v2 ++
        serMembers false ind lvl es2))
      from by simp [serMembers, serEntry, List.append_assoc]]
    cases ind with
    | none =>
      rw [show itemSep none lvl = [',', ' '] from rfl]
      simp only [List.cons_append, List.nil_append, List.append_assoc]
      rw [skipWs_cons_not_ws (by decide)]
      dsimp only
      rw [if_pos rfl]
      rw [show (' ' :: (keyChars false k2 ++ (serVal false none lvl v2 ++
          (serMembers false none lvl es2 ++ close))))
        = [' '] ++ (keyChars false k2 ++ (serVal false none lvl v2 ++
          (serMembers false none lvl es2 ++ close)))
        from rfl]
      rw [ih k2 v2 [' '] f (hall (k2, v2) (List.mem_cons_self _ _))
        (fun e he => hall e (List.mem_cons_of_mem _ he))
        (by intro c hc; simp at hc; subst hc; decide)
        (by simp only [FMembers]; omega)]
      rfl
    | some i =>
      rw [show itemSep (some i) lvl = ',' :: sp (some i) lvl from rfl]
      simp only [List.cons_append, List.nil_append, List.append_assoc]
      rw [skipWs_cons_not_ws (by decide)]
      dsimp only
      rw [if_pos rfl]
      rw [ih k2 v2 (sp (some i) lvl) f (hall (k2, v2) (List.mem_cons_self _ _))
        (fun e he => hall e (List.mem_cons_of_mem _ he))
        (sp_ws _ _)
        (by simp only [FMembers]; omega)]
      rfl

theorem parse_serVal : ∀ (n : Nat) (v : PyVal), sizeOf v ≤ n → isNative v = true → PSP v := by
  intro n
  induction n using Nat.strong_induction_on with
  | _ n ih =>
    intro v hsz hnat
    cases v with
    | null => exact psp_null
    | bool b => exact psp_bool b
    | int m => exact psp_int m
    | str s => exact psp_str s
    | list xs =>
      cases xs with
      | nil =>
        intro ind lvl rest fuel hfuel hsafe
        simp only [FVal, FItems] at hfuel
        obtain ⟨f, rfl⟩ : ∃ f, fuel = f + 1 := ⟨fuel - 1, by omega⟩
        rw [show serVal false ind lvl (.list []) = ['[', ']'] from by simp [serVal]]
        simp only [parseVal, List.cons_append, List.nil_append]
        rw [skipWs_cons_not_ws (by decide)]
        dsimp only
        rw [if_neg (by decide), if_pos rfl]
        rw [show skipWs (']' :: rest) = ']' :: rest from skipWs_cons_not_ws (by decide)]
        simp
      | cons x xs2 =>
        intro ind lvl rest fuel hfuel hsafe
        have hnats : nativeItems (x :: xs2) = true := by simpa [isNative] using hnat
        have hall : ∀ y ∈ x :: xs2, PSP y := by
          intro y hy
          have hlt : sizeOf y < sizeOf (PyVal.list (x :: xs2)) := by
            have := List.sizeOf_lt_of_mem hy
            simp only [PyVal.list.sizeOf_spec]
            omega
          exact ih (sizeOf y) (by omega) y le_rfl (nativeItems_mem hnats y hy)
        simp only [FVal] at hfuel
        obtain ⟨f, rfl⟩ : ∃ f, fuel = f + 1 := ⟨fuel - 1, by omega⟩
        rw [show serVal false ind lvl (.list (x :: xs2)) ++ rest =
          '[' :: (sp ind (lvl + 1) ++ (serVal false ind (lvl + 1) x ++
            (serItems false ind (lvl + 1) xs2 ++ (sp ind lvl ++ (']' :: rest)))))
          from by simp [serVal, List.append_assoc]]
        simp only [parseVal]
        rw [skipWs_cons_not_ws (by decide)]
        dsimp only
        rw [if_neg (by decide), if_pos rfl]
        rw [skipWs_append _ (sp_ws ind (lvl + 1))]
        obtain ⟨c0, t0, hc0, hws0, hne0⟩ :=
          serVal_head_cons false ind (lvl + 1) x (nativeItems_mem hnats x
            (List.mem_cons_self x xs2))
        rw [hc0]
        simp only [List.cons_append]
        rw [skipWs_cons_not_ws hws0]
        rw [if_neg (by simp [hne0])]
        rw [← List.cons_append, ← hc0]
        have hclose2 : skipWs (sp ind lvl ++ (']' :: rest)) = ']' :: rest := by
          rw [skipWs_append _ (sp_ws ind lvl)]
          exact skipWs_cons_not_ws (by decide)
        have hsafe2 : safeRest (sp ind lvl ++ (']' :: rest)) = true :=
          safeRest_sp_cons ind lvl rest (by decide)
        have hres := parseItems_ser ind (lvl + 1) (sp ind lvl ++ (']' :: rest)) rest
          hclose2 hsafe2 xs2 x [] f hall (by intro c hc; simp at hc) (by omega)
        rw [List.nil_append] at hres
        rw [hres]
        rfl
    | dict es =>
      cases es with
      | nil =>
        intro ind lvl rest fuel hfuel hsafe
        simp only [FVal, FMembers] at hfuel
        obtain ⟨f, rfl⟩ : ∃ f, fuel = f + 1 := ⟨fuel - 1, by omega⟩
        rw [show serVal false ind lvl (.dict []) = ['{', '}'] from by simp [serVal]]
        simp only [parseVal, List.cons_append, List.nil_append]
        rw [skipWs_cons_not_ws (by decide)]
        dsimp only
        rw [if_pos rfl]
        rw [show skipWs ('}' :: rest) = '}' :: rest from skipWs_cons_not_ws (by decide)]
        simp
      | cons e es2 =>
        obtain ⟨k, v0⟩ := e
        intro ind lvl rest fuel hfuel hsafe
        have hnats : nativeMembers ((k, v0) :: es2) = true := by
          simpa [isNative] using hnat
        have hv0 : PSP v0 := by
          have hlt : sizeOf v0 < sizeOf (PyVal.dict ((k, v0) :: es2)) := by
            simp only [PyVal.dict.sizeOf_spec, List.cons.sizeOf_spec,
              Prod.mk.sizeOf_spec]
            omega
          exact ih (sizeOf v0) (by omega) v0 le_rfl
            (nativeMembers_mem hnats (k, v0) (List.mem_cons_self _ _))
        have hall : ∀ e2 ∈ es2, PSP e2.2 := by
          intro e2 he2
          have hlt : sizeOf e2.2 < sizeOf (PyVal.dict ((k, v0) :: es2)) := by
            have h1 := List.sizeOf_lt_of_mem he2
            obtain ⟨k2, v2⟩ := e2
            simp only [PyVal.dict.sizeOf_spec, List.cons.sizeOf_spec,
              Prod.mk.sizeOf_spec] at h1 ⊢
            omega
          exact ih (sizeOf e2.2) (by omega) e2.2 le_rfl
            (nativeMembers_mem hnats e2 (List.mem_cons_of_mem _ he2))
        simp only [FVal] at hfuel
        obtain ⟨f, rfl⟩ : ∃ f, fuel = f + 1 := ⟨fuel - 1, by omega⟩
        rw [show serVal false ind lvl (.dict ((k, v0) :: es2)) ++ rest =
          '{' :: (sp ind (lvl + 1) ++ (keyChars false k ++
            (serVal false ind (lvl + 1) v0 ++ (serMembers false ind (lvl + 1) es2 ++
              (sp ind lvl ++ ('}' :: rest))))))
          from by simp [serVal, serEntry, keyChars, List.append_assoc]]
        simp only [parseVal]
        rw [skipWs_cons_not_ws (by decide)]
        dsimp only
        rw [if_pos rfl]
        rw [skipWs_append _ (sp_ws ind (lvl + 1))]
        rw [show keyChars false k ++ (serVal false ind (lvl + 1) v0 ++
            (serMembers false ind (lvl + 1) es2 ++ (sp ind lvl ++ ('}' :: rest))))
          = '"' :: (escChars false k.data ++ (['"', ':', ' '] ++
            (serVal false ind (lvl + 1) v0 ++ (serMembers false ind (lvl + 1) es2 ++
              (sp ind lvl ++ ('}' :: rest))))))
          from by simp [keyChars, List.append_assoc]]
        rw [skipWs_cons_not_ws (by decide)]
        rw [if_neg (by simp)]
        have hkc : '"' :: (escChars false k.data ++ (['"', ':', ' '] ++
            (serVal false ind (lvl + 1) v0 ++ (serMembers false ind (lvl + 1) es2 ++
              (sp ind lvl ++ ('}' :: rest))))))
          = keyChars false k ++ (serVal false ind (lvl + 1) v0 ++
            (serMembers false ind (lvl + 1) es2 ++ (sp ind lvl ++ ('}' :: rest)))) := by
          simp [keyChars, List.append_assoc]
        rw [hkc]
        have hclose2 : skipWs (sp ind lvl ++ ('}' :: rest)) = '}' :: rest := by
          rw [skipWs_append _ (sp_ws ind lvl)]
          exact skipWs_cons_not_ws (by decide)
        have hsafe2 : safeRest (sp ind lvl ++ ('}' :: rest)) = true :=
          safeRest_sp_cons ind lvl rest (by decide)
        have hres := parseMembers_ser ind (lvl + 1) (sp ind lvl ++ ('}' :: rest)) rest
          hclose2 hsafe2 es2 k v0 [] f hv0 hall (by intro c hc; simp at hc) (by omega)
        rw [List.nil_append] at hres
        rw [hres]
        rfl
    | path p => simp [isNative] at hnat
    | set xs => simp [isNative] at hnat
    | frozenset xs => simp [isNative] at hnat
    | obj a b c d e => simp [isNative] at hnat

/-- Parse–print inversion for every natively serializable value. -/
theorem psp_of_native (v : PyVal) (hnat : isNative v = true) : PSP v :=
  parse_serVal (sizeOf v) v le_rfl hnat

theorem itemSep_len_ge (ind : Option Int) (lvl : Nat) :
    1 ≤ (itemSep ind lvl).length := by
  cases ind with
  | none => simp [itemSep]
  | some i => simp [itemSep]

theorem FItems_le_len (ind : Option Int) (lvl : Nat) :
    ∀ (ys : List PyVal),
      (∀ y ∈ ys, FVal y ≤ (serVal false ind lvl y).length) →
      FItems ys ≤ (serItems false ind lvl ys).length := by
  intro ys
  induction ys with
  | nil => intro h; simp [FItems, serItems]
  | cons y ys2 ih =>
    intro h
    have h1 := h y (List.mem_cons_self y ys2)
    have h2 := ih fun z hz => h z (List.mem_cons_of_mem y hz)
    have h3 := itemSep_len_ge ind lvl
    rw [show serItems false ind lvl (y :: ys2) =
      itemSep ind lvl ++ serVal false ind lvl y ++ serItems false ind lvl ys2
      from by simp [serItems]]
    simp only [FItems, List.length_append]
    omega

theorem keyChars_len_ge (k : String) : 1 ≤ (keyChars false k).length := by
  simp [keyChars]

theorem FMembers_le_len (ind : Option Int) (lvl : Nat) :
    ∀ (es : List (String × PyVal)),
      (∀ e ∈ es, FVal e.2 ≤ (serVal false ind lvl e.2).length) →
      FMembers es ≤ (serMembers false ind lvl es).length := by
  intro es
  induction es with
  | nil => intro h; simp [FMembers, serMembers]
  | cons e es2 ih =>
    obtain ⟨k, v⟩ := e
    intro h
    have h1 := h (k, v) (List.mem_cons_self _ es2)
    dsimp only at h1
    have h2 := ih fun z hz => h z (List.mem_cons_of_mem _ hz)
    have h3 := itemSep_len_ge ind lvl
    have h4 := keyChars_len_ge k
    rw [show serMembers false ind lvl ((k, v) :: es2) =
      itemSep ind lvl ++ (keyChars false k ++ serVal false ind lvl v) ++
        serMembers false ind lvl es2
      from by simp [serMembers, serEntry]]
    simp only [FMembers, List.length_append]
    omega

theorem FVal_le_len : ∀ (n : Nat) (v : PyVal), sizeOf v ≤ n →
    isNative v = true → ∀ (ind : Option Int) (lvl : Nat),
    FVal v ≤ (serVal false ind lvl v).length := by
  intro n
  induction n using Nat.strong_induction_on with
  | _ n ih =>
    intro v hsz hnat ind lvl
    cases v with
    | null => simp [FVal, serVal]
    | bool b => cases b <;> simp [FVal, serVal]
    | int m =>
      have h1 : natToChars m.natAbs ≠ [] := natToChars_ne_nil _
      have h2 : 1 ≤ (natToChars m.natAbs).length := by
        cases hh : natToChars m.natAbs with
        | nil => exact absurd hh h1
        | cons a b => simp
      simp only [FVal, serVal, intToChars]
      split
      all_goals simp
      all_goals omega
    | str s => simp [FVal, serVal]
    | list xs =>
      cases xs with
      | nil => simp [FVal, FItems, serVal]
      | cons x xs2 =>
        have hnats : nativeItems (x :: xs2) = true := by simpa [isNative] using hnat
        have hbound : ∀ y ∈ x :: xs2, FVal y ≤ (serVal false ind (lvl + 1) y).length := by
          intro y hy
          have hlt : sizeOf y < sizeOf (PyVal.list (x :: xs2)) := by
            have := List.sizeOf_lt_of_mem hy
            simp only [PyVal.list.sizeOf_spec]
            omega
          exact ih (sizeOf y) (by omega) y le_rfl (nativeItems_mem hnats y hy) ind (lvl + 1)
        have hit := FItems_le_len ind (lvl + 1) xs2
          (fun z hz => hbound z (List.mem_cons_of_mem x hz))
        rw [show serVal false ind lvl (.list (x :: xs2)) =
          '[' :: (sp ind (lvl + 1) ++ serVal false ind (lvl + 1) x ++
            serItems false ind (lvl + 1) xs2 ++ sp ind lvl ++ [']'])
          from by simp [serVal]]
        have hx := hbound x (List.mem_cons_self x xs2)
        simp only [FVal, FItems, List.length_cons, List.length_append] at hit ⊢
        omega
    | dict es =>
      cases es with
      | nil => simp [FVal, FMembers, serVal]
      | cons e es2 =>
        obtain ⟨k, v0⟩ := e
        have hnats : nativeMembers ((k, v0) :: es2) = true := by
          simpa [isNative] using hnat
        have hbound : ∀ e2 ∈ (k, v0) :: es2,
            FVal e2.2 ≤ (serVal false ind (lvl + 1) e2.2).length := by
          intro e2 he2
          have hlt : sizeOf e2.2 < sizeOf (PyVal.dict ((k, v0) :: es2)) := by
            have h1 := List.sizeOf_lt_of_mem he2
            obtain ⟨k2, v2⟩ := e2
            simp only [PyVal.dict.sizeOf_spec, List.cons.sizeOf_spec,
              Prod.mk.sizeOf_spec] at h1 ⊢
            omega
          exact ih (sizeOf e2.2) (by omega) e2.2 le_rfl
            (nativeMembers_mem hnats e2 he2) ind (lvl + 1)
        have hit := FMembers_le_len ind (lvl + 1) es2
          (fun z hz => hbound z (List.mem_cons_of_mem _ hz))
        have hv0b := hbound (k, v0) (List.mem_cons_self _ es2)
        dsimp only at hv0b
        rw [show serVal false ind lvl (.dict ((k, v0) :: es2)) =
          '{' :: (sp ind (lvl + 1) ++ (keyChars false k ++ serVal false ind (lvl + 1) v0) ++
            serMembers false ind (lvl + 1) es2 ++ sp ind lvl ++ ['}'])
          from by simp [serVal, serEntry]]
        simp only [FVal, FMembers, List.length_cons, List.length_append] at hit ⊢
        have hkl := keyChars_len_ge k
        have hil := itemSep_len_ge ind (lvl + 1)
        omega
    | path p => simp [isNative] at hnat
    | set xs => simp [isNative] at hnat
    | frozenset xs => simp [isNative] at hnat
    | obj a b c d e => simp [isNative] at hnat

/-- The serializer property of a value: `dumpVal` succeeds and produces
exactly the pure layout `serVal`, for every encoder, escaping mode,
indentation, level, and sufficient fuel. -/
def DSP (v : PyVal) : Prop :=
  ∀ (enc : Encoder) (ea : Bool) (ind : Option Int) (fuel lvl : Nat),
    FVal v ≤ fuel →
    dumpVal enc ea ind fuel lvl v = .ok (serVal ea ind lvl v)

theorem dumpItems_ok (enc : Encoder) (ea : Bool) (ind : Option Int) :
    ∀ (xs : List PyVal) (fuel lvl : Nat),
      (∀ y ∈ xs, DSP y) → FItems xs ≤ fuel →
      dumpItems enc ea ind fuel lvl xs = .ok (serItems ea ind lvl xs) := by
  intro xs
  induction xs with
  | nil => intro fuel lvl hall hfuel; simp [dumpItems, serItems]
  | cons x xs2 ih =>
    intro fuel lvl hall hfuel
    simp only [FItems] at hfuel
    obtain ⟨f, rfl⟩ : ∃ f, fuel = f + 1 := ⟨fuel - 1, by omega⟩
    simp only [dumpItems]
    rw [hall x (List.mem_cons_self x xs2) enc ea ind f lvl (by omega)]
    rw [ih f lvl (fun z hz => hall z (List.mem_cons_of_mem x hz)) (by omega)]
    simp [serItems]

theorem dumpMembers_ok (enc : Encoder) (ea : Bool) (ind : Option Int) :
    ∀ (es : List (String × PyVal)) (fuel lvl : Nat),
      (∀ e ∈ es, DSP e.2) → FMembers es ≤ fuel →
      dumpMembers enc ea ind fuel lvl es = .ok (serMembers ea ind lvl es) := by
  intro es
  induction es with
  | nil => intro fuel lvl hall hfuel; simp [dumpMembers, serMembers]
  | cons e es2 ih =>
    obtain ⟨k, v⟩ := e
    intro fuel lvl hall hfuel
    simp only [FMembers] at hfuel
    obtain ⟨f, rfl⟩ : ∃ f, fuel = f + 1 := ⟨fuel - 1, by omega⟩
    simp only [dumpMembers]
    have h1 := hall (k, v) (List.mem_cons_self _ es2)
    dsimp only at h1
    rw [h1 enc ea ind f lvl (by omega)]
    rw [ih f lvl (fun z hz => hall z (List.mem_cons_of_mem _ hz)) (by omega)]
    simp [serMembers, serEntry, keyChars]

theorem dump_native : ∀ (n : Nat) (v : PyVal), sizeOf v ≤ n →
    isNative v = true → DSP v := by
  intro n
  induction n using Nat.strong_induction_on with
  | _ n ih =>
    intro v hsz hnat enc ea ind fuel lvl hfuel
    cases v with
    | null => simp [dumpVal, serVal]
    | bool b => cases b <;> simp [dumpVal, serVal]
    | int m => simp [dumpVal, serVal]
    | str s => simp [dumpVal, serVal]
    | list xs =>
      cases xs with
      | nil => simp [dumpVal, serVal]
      | cons x xs2 =>
        have hnats : nativeItems (x :: xs2) = true := by simpa [isNative] using hnat
        have hall : ∀ y ∈ x :: xs2, DSP y := by
          intro y hy
          have hlt : sizeOf y < sizeOf (PyVal.list (x :: xs2)) := by
            have := List.sizeOf_lt_of_mem hy
            simp only [PyVal.list.sizeOf_spec]
            omega
          exact ih (sizeOf y) (by omega) y le_rfl (nativeItems_mem hnats y hy)
        simp only [FVal, FItems] at hfuel
        obtain ⟨f, rfl⟩ : ∃ f, fuel = f + 1 := ⟨fuel - 1, by omega⟩
        simp only [dumpVal]
        rw [hall x (List.mem_cons_self x xs2) enc ea ind f (lvl + 1) (by omega)]
        rw [dumpItems_ok enc ea ind xs2 f (lvl + 1)
          (fun z hz => hall z (List.mem_cons_of_mem x hz)) (by omega)]
        simp [serVal]
    | dict es =>
      cases es with
      | nil => simp [dumpVal, serVal]
      | cons e es2 =>
        obtain ⟨k, v0⟩ := e
        have hnats : nativeMembers ((k, v0) :: es2) = true := by
          simpa [isNative] using hnat
        have hv0 : DSP v0 := by
          have hlt : sizeOf v0 < sizeOf (PyVal.dict ((k, v0) :: es2)) := by
            simp only [PyVal.dict.sizeOf_spec, List.cons.sizeOf_spec,
              Prod.mk.sizeOf_spec]
            omega
          exact ih (sizeOf v0) (by omega) v0 le_rfl
            (nativeMembers_mem hnats (k, v0) (List.mem_cons_self _ _))
        have hall : ∀ e2 ∈ es2, DSP e2.2 := by
          intro e2 he2
          have hlt : sizeOf e2.2 < sizeOf (PyVal.dict ((k, v0) :: es2)) := by
            have h1 := List.sizeOf_lt_of_mem he2
            obtain ⟨k2, v2⟩ := e2
            simp only [PyVal.dict.sizeOf_spec, List.cons.sizeOf_spec,
              Prod.mk.sizeOf_spec] at h1 ⊢
            omega
          exact ih (sizeOf e2.2) (by omega) e2.2 le_rfl
            (nativeMembers_mem hnats e2 (List.mem_cons_of_mem _ he2))
        simp only [FVal, FMembers] at hfuel
        obtain ⟨f, rfl⟩ : ∃ f, fuel = f + 1 := ⟨fuel - 1, by omega⟩
        simp only [dumpVal]
        rw [hv0 enc ea ind f (lvl + 1) (by omega)]
        rw [dumpMembers_ok enc ea ind es2 f (lvl + 1) hall (by omega)]
        simp [serVal, serEntry, keyChars]
    | path p => simp [isNative] at hnat
    | set xs2 => simp [isNative] at hnat
    | frozenset xs2 => simp [isNative] at hnat
    | obj a b c d e => simp [isNative] at hnat

/-- `json.loads` inverts the serializer's output (which always carries the
trailing newline the writer appends). -/
theorem json_loads_ser (ind : Option Int) (v : PyVal) (hnat : isNative v = true) :
    json_loads (serVal false ind 0 v ++ ['\n']) = .ok v := by
  simp only [json_loads]
  have hfit : FVal v ≤ (serVal false ind 0 v ++ ['\n']).length + 1 := by
    have := FVal_le_len (sizeOf v) v le_rfl hnat ind 0
    simp only [List.length_append]
    omega
  rw [psp_of_native v hnat ind 0 ['\n'] _ hfit (by decide)]
  simp [skipWs, isWs]

theorem setFile_get (fs : FS) (d : List String) (n : String) (c : List Char) :
    (fs.setFile d n c).files d n = some c := by
  simp [FS.setFile]

theorem setFile_get_ne (fs : FS) (d : List String) (n : String) (c : List Char)
    (d2 : List String) (n2 : String) (h : ¬(d2 = d ∧ n2 = n)) :
    (fs.setFile d n c).files d2 n2 = fs.files d2 n2 := by
  simp only [FS.setFile]
  rw [if_neg h]

theorem delFile_get (fs : FS) (d : List String) (n : String) :
    (fs.delFile d n).files d n = none := by
  simp [FS.delFile]

theorem delFile_get_ne (fs : FS) (d : List String) (n : String)
    (d2 : List String) (n2 : String) (h : ¬(d2 = d ∧ n2 = n)) :
    (fs.delFile d n).files d2 n2 = fs.files d2 n2 := by
  simp only [FS.delFile]
  rw [if_neg h]

theorem isPrefixOf_self (d : List String) : d.isPrefixOf d = true := by
  induction d with
  | nil => rfl
  | cons a as ih => simp [List.isPrefixOf, ih]

theorem mkdirParents_self (dirs : List String → Bool) (d : List String) :
    mkdirParents dirs d d = true := by
  simp [mkdirParents, isPrefixOf_self]

/-- The temporary file's name never equals the target's name (it is
strictly longer: a leading dot, a random middle part, a `.tmp` suffix). -/
theorem tmpName_ne (p : FPath) (rand : String) : tmpName p rand ≠ p.name := by
  intro h
  have hl := congrArg String.length h
  simp only [tmpName, String.length_append] at hl
  have h1 : (".").length = 1 := rfl
  have h2 : (".tmp").length = 4 := rfl
  rw [h1, h2] at hl
  omega

/-- C9: while a client is cached, `get_sync_client`/`get_async_client`
ignore the `uri` argument and return the cached client with the state
unchanged; the argument only takes effect on the call that first creates
the cached client. -/
theorem claim_c9_cached_client_ignores_uri :
    ∀ (E : MongoEnv) (st : MongoGlobals) (uri uri2 : Option String),
      (∀ c, st.asyncClient = some c →
        get_async_client E st uri = (c, st) ∧
        get_async_client E st uri = get_async_client E st uri2) ∧
      (st.asyncClient = none →
        get_async_client E st uri =
          (_new_async_client E uri,
            { st with asyncClient := some (_new_async_client E uri) })) ∧
      (∀ c, st.syncClient = some c →
        get_sync_client E st uri = (c, st) ∧
        get_sync_client E st uri = get_sync_client E st uri2) ∧
      (st.syncClient = none →
        get_sync_client E st uri =
          (_new_sync_client E uri,
            { st with syncClient := some (_new_sync_client E uri) })) := by
  intro E st uri uri2
  refine ⟨?_, ?_, ?_, ?_⟩
  · intro c hc
    constructor <;> simp [get_async_client, hc]
  · intro hc
    simp [get_async_client, hc]
  · intro c hc
    constructor <;> simp [get_sync_client, hc]
  · intro hc
    simp [get_sync_client, hc]

/-- C9 witness at a concrete cached and uncached state. -/
theorem claim_c9_witness :
    get_async_client ⟨fun _ => none, false, ""⟩
        ⟨some ⟨"mongodb://a", "5000", none⟩, none⟩ (some "mongodb://b") =
      (⟨"mongodb://a", "5000", none⟩,
        ⟨some ⟨"mongodb://a", "5000", none⟩, none⟩) ∧
    get_sync_client ⟨fun _ => none, false, ""⟩
        ⟨some ⟨"mongodb://a", "5000", none⟩, none⟩ (some "mongodb://b") =
      (_new_sync_client ⟨fun _ => none, false, ""⟩ (some "mongodb://b"),
        { asyncClient := some ⟨"mongodb://a", "5000", none⟩,
          syncClient := some (_new_sync_client ⟨fun _ => none, false, ""⟩
            (some "mongodb://b")) }) :=
  ⟨((claim_c9_cached_client_ignores_uri ⟨fun _ => none, false, ""⟩
      ⟨some ⟨"mongodb://a", "5000", none⟩, none⟩ (some "mongodb://b") none).1
      ⟨"mongodb://a", "5000", none⟩ rfl).1,
    (claim_c9_cached_client_ignores_uri ⟨fun _ => none, false, ""⟩
      ⟨some ⟨"mongodb://a", "5000", none⟩, none⟩ (some "mongodb://b") none).2.2.2 rfl⟩

/-- C10: the close functions are idempotent: closing with nothing cached
is a no-op (and raises nothing — the function is total), after any call
the cached handle is `None`, and a second consecutive call changes
nothing. -/
theorem claim_c10_close_idempotent :
    ∀ (st : MongoGlobals),
      (close_async_client st).asyncClient = none ∧
      close_async_client (close_async_client st) = close_async_client st ∧
      (st.asyncClient = none → close_async_client st = st) ∧
      (close_sync_client st).syncClient = none ∧
      close_sync_client (close_sync_client st) = close_sync_client st ∧
      (st.syncClient = none → close_sync_client st = st) := by
  intro st
  refine ⟨?_, ?_, ?_, ?_, ?_, ?_⟩
  · cases hc : st.asyncClient <;> simp [close_async_client, hc]
  · cases hc : st.asyncClient <;> simp [close_async_client, hc]
  · intro hc; simp [close_async_client, hc]
  · cases hc : st.syncClient <;> simp [close_sync_client, hc]
  · cases hc : st.syncClient <;> simp [close_sync_client, hc]
  · intro hc; simp [close_sync_client, hc]

/-- C10 witness at a concrete state with no cached clients. -/
theorem claim_c10_witness :
    close_async_client ⟨none, none⟩ = (⟨none, none⟩ : MongoGlobals) ∧
    close_sync_client ⟨none, none⟩ = (⟨none, none⟩ : MongoGlobals) :=
  ⟨(claim_c10_close_idempotent ⟨none, none⟩).2.2.1 rfl,
    (claim_c10_close_idempotent ⟨none, none⟩).2.2.2.2.2 rfl⟩

/-- C5: reading a non-existent path fails with the not-found error kind
(never a default value); reading an existing path parses the full content
as JSON and returns the parsed value, parse errors propagating. -/
theorem claim_c5_read_json :
    ∀ (fs : FS) (p : FPath) (encoding : String),
      (fs.files p.parent p.name = none →
        ∃ msg, read_json fs p encoding = .error (.fileNotFound msg)) ∧
      (∀ content, fs.files p.parent p.name = some content →
        read_json fs p encoding = json_loads content) := by
  intro fs p encoding
  constructor
  · intro h
    refine ⟨"JSON file not found: " ++ p.name, ?_⟩
    simp [read_json, h]
  · intro content h
    simp [read_json, h]

/-- C5 witness: a concrete missing file and a concrete present file. -/
theorem claim_c5_witness :
    (∃ msg, read_json ⟨fun _ => true, fun _ _ => none⟩ ⟨[], "a.json"⟩ "utf-8" =
      .error (.fileNotFound msg)) ∧
    read_json ⟨fun _ => true, fun _ _ => some ['7']⟩ ⟨[], "a.json"⟩ "utf-8" =
      json_loads ['7'] :=
  ⟨(claim_c5_read_json ⟨fun _ => true, fun _ _ => none⟩ ⟨[], "a.json"⟩ "utf-8").1 rfl,
    (claim_c5_read_json ⟨fun _ => true, fun _ _ => some ['7']⟩ ⟨[], "a.json"⟩
      "utf-8").2 ['7'] rfl⟩

/-- C8: the default fallback's `set` rule tests only the built-in mutable
`set`, so a frozenset (which has none of the probed methods) falls through
to its default string representation and never serializes as a sorted
element sequence. -/
theorem claim_c8_frozenset_not_set :
    ∀ (xs : List PyVal),
      _json_default (.frozenset xs) = .str (pyStr (.frozenset xs)) ∧
      ∀ ys, _json_default (.frozenset xs) ≠ .list ys := by
  intro xs
  constructor
  · simp [_json_default, tsOf, twktOf, tepsgOf, itmOf]
  · intro ys
    simp [_json_default, tsOf, twktOf, tepsgOf, itmOf]

/-- C8 witness: the frozenset of 3 and 1 serializes to its `repr` string,
not to the sorted list. -/
theorem claim_c8_witness :
    _json_default (.frozenset [.int 3, .int 1]) =
      .str (pyStr (.frozenset [.int 3, .int 1])) ∧
    _json_default (.frozenset [.int 3, .int 1]) ≠ .list [.int 1, .int 3] :=
  ⟨(claim_c8_frozenset_not_set [.int 3, .int 1]).1,
    (claim_c8_frozenset_not_set [.int 3, .int 1]).2 [.int 1, .int 3]⟩

/-- C4: the default fallback encoder tries its rules in the fixed order
path → set → `to_string` → `to_wkt` → `to_epsg` → `item` → `str`: a path
serializes to its string form; the set `{3,1,2}` to `[1,2,3]`; a working
`to_string` wins over everything later; a failing/absent `to_string`
falls through to a working `to_wkt`; a `to_epsg` returning a non-null
code yields `"EPSG:<code>"` while a null return or a raise continues to
`item`; and every probe tolerates the method being absent or raising by
moving on. -/
theorem claim_c4_fallback_order :
    (∀ s : String, _json_default (.path s) = .str s) ∧
    _json_default (.set [.int 3, .int 1, .int 2]) = .list [.int 1, .int 2, .int 3] ∧
    (∀ (c : String) twkt tepsg itm rep,
      _json_default (.obj (some (some c)) twkt tepsg itm rep) = .str c) ∧
    (∀ ts (w : String) tepsg itm rep, ts = none ∨ ts = some none →
      _json_default (.obj ts (some (some w)) tepsg itm rep) = .str w) ∧
    (∀ ts twkt (code : Int) itm rep, ts = none ∨ ts = some none →
      twkt = none ∨ twkt = some none →
      _json_default (.obj ts twkt (some (some (some code))) itm rep) =
        .str ("EPSG:" ++ toString code)) ∧
    (∀ ts twkt tepsg (v2 : PyVal) rep, ts = none ∨ ts = some none →
      twkt = none ∨ twkt = some none →
      tepsg = none ∨ tepsg = some none ∨ tepsg = some (some none) →
      _json_default (.obj ts twkt tepsg (some (some v2)) rep) = v2) ∧
    (∀ ts twkt tepsg itm rep, ts = none ∨ ts = some none →
      twkt = none ∨ twkt = some none →
      tepsg = none ∨ tepsg = some none ∨ tepsg = some (some none) →
      itm = none ∨ itm = some none →
      _json_default (.obj ts twkt tepsg itm rep) = .str rep) := by
  refine ⟨?_, ?_, ?_, ?_, ?_, ?_, ?_⟩
  · intro s; simp [_json_default]
  · rfl
  · intro c twkt tepsg itm rep
    simp [_json_default, tsOf]
  · intro ts w tepsg itm rep hts
    rcases hts with h | h <;> subst h <;>
      simp [_json_default, tsOf, twktOf]
  · intro ts twkt code itm rep hts htw
    rcases hts with h | h <;> rcases htw with h2 | h2 <;> subst h <;> subst h2 <;>
      simp [_json_default, tsOf, twktOf, tepsgOf]
  · intro ts twkt tepsg v2 rep hts htw hep
    rcases hts with h | h <;> rcases htw with h2 | h2 <;>
      rcases hep with h3 | h3 | h3 <;> subst h <;> subst h2 <;> subst h3 <;>
      simp [_json_default, tsOf, twktOf, tepsgOf, itmOf]
  · intro ts twkt tepsg itm rep hts htw hep hit
    rcases hts with h | h <;> rcases htw with h2 | h2 <;>
      rcases hep with h3 | h3 | h3 <;> rcases hit with h4 | h4 <;>
      subst h <;> subst h2 <;> subst h3 <;> subst h4 <;>
      simp [_json_default, tsOf, twktOf, tepsgOf, itmOf, pyStr]

/-- C4 witness: concrete instances of every rule of the fallback chain. -/
theorem claim_c4_witness :
    _json_default (.path "/tmp/x") = .str "/tmp/x" ∧
    _json_default (.set [.int 3, .int 1, .int 2]) = .list [.int 1, .int 2, .int 3] ∧
    _json_default (.obj (some (some "X")) (some (some "W")) none none "o") = .str "X" ∧
    _json_default (.obj (some none) (some (some "W")) none none "o") = .str "W" ∧
    _json_default (.obj none (some none) (some (some (some 4326))) none "o") =
      .str "EPSG:4326" ∧
    _json_default (.obj none none (some (some none)) (some (some (.int 7))) "o") =
      .int 7 ∧
    _json_default (.obj none (some none) (some none) (some none) "objrepr") =
      .str "objrepr" :=
  ⟨claim_c4_fallback_order.1 "/tmp/x",
    claim_c4_fallback_order.2.1,
    claim_c4_fallback_order.2.2.1 "X" (some (some "W")) none none "o",
    claim_c4_fallback_order.2.2.2.1 (some none) "W" none none "o" (Or.inr rfl),
    claim_c4_fallback_order.2.2.2.2.1 none none 4326 none "o" (Or.inl rfl) (Or.inl rfl),
    claim_c4_fallback_order.2.2.2.2.2.1 none none (some (some none)) (.int 7) "o"
      (Or.inl rfl) (Or.inl rfl) (Or.inr (Or.inr rfl)),
    claim_c4_fallback_order.2.2.2.2.2.2 none (some none) (some none) (some none)
      "objrepr" (Or.inl rfl) (Or.inr rfl) (Or.inr (Or.inl rfl)) (Or.inr rfl)⟩

/-- C2: writing a natively JSON-serializable value and reading the path
back yields a structurally equal value, in both atomic and non-atomic
modes and for both compact and indented output. -/
theorem claim_c2_roundtrip :
    ∀ (fs : FS) (p : FPath) (v : PyVal) (encoding : String) (ind : Option Int)
      (atomic : Bool) (dflt : Option Encoder) (fuel : Nat) (rand : String),
      isNative v = true → FVal v ≤ fuel →
      (write_json fs p v encoding ind false true atomic dflt fuel rand noFault).1 =
        .ok () ∧
      read_json
        ((write_json fs p v encoding ind false true atomic dflt fuel rand noFault).2)
        p encoding = .ok v := by
  intro fs p v encoding ind atomic dflt fuel rand hnat hfuel
  have hdump : dumpVal (dflt.getD jsonDefaultEnc) false ind fuel 0 v =
      .ok (serVal false ind 0 v) :=
    dump_native (sizeOf v) v le_rfl hnat (dflt.getD jsonDefaultEnc) false ind fuel 0 hfuel
  cases atomic with
  | false =>
    constructor
    · simp [write_json, mkdirParents_self, hdump, noFault]
    · have hfile : (write_json fs p v encoding ind false true false dflt fuel rand
          noFault).2.files p.parent p.name = some (serVal false ind 0 v ++ ['\n']) := by
        simp [write_json, mkdirParents_self, hdump, noFault, setFile_get]
      simp [read_json, hfile, json_loads_ser ind v hnat]
  | true =>
    constructor
    · simp [write_json, mkdirParents_self, hdump, noFault]
    · have hfile : (write_json fs p v encoding ind false true true dflt fuel rand
          noFault).2.files p.parent p.name = some (serVal false ind 0 v ++ ['\n']) := by
        simp [write_json, mkdirParents_self, hdump, noFault, setFile_get]
      simp [read_json, hfile, json_loads_ser ind v hnat]

/-- C6: when the target's parent directory is missing, the write succeeds
with parent creation enabled (creating every ancestor, idempotently), and
fails with an I/O-error kind when it is disabled. -/
theorem claim_c6_parent_creation :
    ∀ (fs : FS) (p : FPath) (data : PyVal) (encoding : String) (ind : Option Int)
      (ea : Bool) (atomic : Bool) (dflt : Option Encoder) (fuel : Nat)
      (rand : String) (out : List Char),
      fs.dirs p.parent = false →
      dumpVal (dflt.getD jsonDefaultEnc) ea ind fuel 0 data = .ok out →
      ((write_json fs p data encoding ind ea true atomic dflt fuel rand noFault).1 =
          .ok () ∧
        (∀ q, q.isPrefixOf p.parent = true →
          (write_json fs p data encoding ind ea true atomic dflt fuel rand
            noFault).2.dirs q = true)) ∧
      (∃ e, (write_json fs p data encoding ind ea false atomic dflt fuel rand
          noFault).1 = .error e ∧ e.isOSError = true) ∧
      (∀ fs2 : FS, (∀ q, q.isPrefixOf p.parent = true → fs2.dirs q = true) →
        (write_json fs2 p data encoding ind ea true atomic dflt fuel rand
          noFault).2.dirs = fs2.dirs) := by
  intro fs p data encoding ind ea atomic dflt fuel rand out hdir hdump
  refine ⟨⟨?_, ?_⟩, ?_, ?_⟩
  · cases atomic <;> simp [write_json, mkdirParents_self, hdump, noFault]
  · intro q hq
    cases atomic <;>
      simp [write_json, mkdirParents_self, isPrefixOf_self, hdump, noFault,
        FS.setFile, FS.delFile, mkdirParents, hq]
  · refine ⟨.fileNotFound "No such file or directory", ?_, rfl⟩
    cases atomic <;> simp [write_json, hdir, noFault]
  · intro fs2 hall
    have hmk : mkdirParents fs2.dirs p.parent = fs2.dirs := by
      funext q
      cases hq : q.isPrefixOf p.parent with
      | true => simp [mkdirParents, hq, hall q hq]
      | false => simp [mkdirParents, hq]
    cases atomic <;>
      simp [write_json, hmk, mkdirParents_self, hall p.parent (isPrefixOf_self _),
        hdump, noFault, FS.setFile, FS.delFile]

/-- C6 witness at a concrete filesystem with no directories. -/
theorem claim_c6_witness :
    (write_json ⟨fun _ => false, fun _ _ => none⟩ ⟨["d"], "f.json"⟩ .null "utf-8"
        none false true true none 1 "r" noFault).1 = .ok () ∧
    (∃ e, (write_json ⟨fun _ => false, fun _ _ => none⟩ ⟨["d"], "f.json"⟩ .null
        "utf-8" none false false true none 1 "r" noFault).1 = .error e ∧
      e.isOSError = true) := by
  have h := claim_c6_parent_creation ⟨fun _ => false, fun _ _ => none⟩
    ⟨["d"], "f.json"⟩ .null "utf-8" none false true none 1 "r" ['n', 'u', 'l', 'l']
    rfl (by simp [dumpVal])
  exact ⟨h.1.1, h.2.1⟩

/-- C7: a caller-supplied fallback encoder is the one handed to the
serializer (instead of the default chain): the written bytes are exactly
the caller-encoder serialization, and a caller-encoder failure is the
writer's failure, in both atomic and non-atomic modes. -/
theorem claim_c7_custom_encoder :
    ∀ (fs : FS) (p : FPath) (data : PyVal) (encoding : String) (ind : Option Int)
      (ea : Bool) (atomic : Bool) (enc : Encoder) (fuel : Nat) (rand : String),
      (∀ out, dumpVal enc ea ind fuel 0 data = .ok out →
        (write_json fs p data encoding ind ea true atomic (some enc) fuel rand
          noFault).1 = .ok () ∧
        (write_json fs p data encoding ind ea true atomic (some enc) fuel rand
          noFault).2.files p.parent p.name = some (out ++ ['\n'])) ∧
      (∀ e part, dumpVal enc ea ind fuel 0 data = .error (e, part) →
        (write_json fs p data encoding ind ea true atomic (some enc) fuel rand
          noFault).1 = .error e) := by
  intro fs p data encoding ind ea atomic enc fuel rand
  constructor
  · intro out hdump
    cases atomic <;>
      constructor <;>
        simp [write_json, mkdirParents_self, hdump, noFault, setFile_get]
  · intro e part hdump
    cases atomic <;> simp [write_json, mkdirParents_self, hdump, noFault]

/-- C7 witness: a concrete custom encoder turning every non-native value
into the string `"CUSTOM"`, visibly different from the default chain. -/
theorem claim_c7_witness :
    (write_json ⟨fun _ => true, fun _ _ => none⟩ ⟨[], "f.json"⟩ (.path "/x")
        "utf-8" none false true true
        (some fun _ => .ok (.str "CUSTOM")) 2 "r" noFault).2.files [] "f.json" =
      some ('"' :: ('C' :: 'U' :: 'S' :: 'T' :: 'O' :: 'M' :: '"' :: []) ++ ['\n']) := by
  have h := (claim_c7_custom_encoder ⟨fun _ => true, fun _ _ => none⟩ ⟨[], "f.json"⟩
    (.path "/x") "utf-8" none false true (fun _ => .ok (.str "CUSTOM")) 2 "r").1
    ('"' :: ('C' :: 'U' :: 'S' :: 'T' :: 'O' :: 'M' :: '"' :: []))
    (by simp [dumpVal, serVal, escChars, escChar])
  exact h.2

/-- C1: an atomic-mode write that fails during serialization or the
durability barrier (after the temporary file is created, before the
rename) re-raises the original failure, leaves the target path's prior
content (or absence) unchanged, and leaves no stray temporary file — in
fact the whole filesystem except the temporary name is untouched, and the
temporary name holds no file. -/
theorem claim_c1_atomic_failure_clean :
    ∀ (fs : FS) (p : FPath) (data : PyVal) (encoding : String) (ind : Option Int)
      (ea : Bool) (cp : Bool) (dflt : Option Encoder) (fuel : Nat) (rand : String)
      (fault : Fault) (err : PyErr),
      fs.dirs p.parent = true →
      ((∃ part, dumpVal (dflt.getD jsonDefaultEnc) ea ind fuel 0 data =
          .error (err, part)) ∨
        (fault.fsync = some err ∧
          ∃ out, dumpVal (dflt.getD jsonDefaultEnc) ea ind fuel 0 data = .ok out)) →
      (write_json fs p data encoding ind ea cp true dflt fuel rand fault).1 =
        .error err ∧
      (write_json fs p data encoding ind ea cp true dflt fuel rand fault).2.files
        p.parent (tmpName p rand) = none ∧
      (∀ n2, n2 ≠ tmpName p rand →
        (write_json fs p data encoding ind ea cp true dflt fuel rand fault).2.files
          p.parent n2 = fs.files p.parent n2) ∧
      (∀ d2, d2 ≠ p.parent → ∀ n2,
        (write_json fs p data encoding ind ea cp true dflt fuel rand fault).2.files
          d2 n2 = fs.files d2 n2) ∧
      (write_json fs p data encoding ind ea cp true dflt fuel rand fault).2.files
        p.parent p.name = fs.files p.parent p.name := by
  intro fs p data encoding ind ea cp dflt fuel rand fault err hdir hcase
  have hmain : (write_json fs p data encoding ind ea cp true dflt fuel rand fault).1 =
        .error err ∧
      ∀ d2 n2, (write_json fs p data encoding ind ea cp true dflt fuel rand
        fault).2.files d2 n2 =
          if d2 = p.parent ∧ n2 = tmpName p rand then none else fs.files d2 n2 := by
    rcases hcase with ⟨part, hdump⟩ | ⟨hfs, out, hdump⟩
    · constructor
      · cases cp <;> simp [write_json, hdir, mkdirParents, isPrefixOf_self, hdump]
      · intro d2 n2
        cases cp <;>
          simp [write_json, hdir, mkdirParents, isPrefixOf_self, hdump,
            FS.setFile, FS.delFile] <;>
          by_cases hh : d2 = p.parent ∧ n2 = tmpName p rand <;> simp [hh]
    · constructor
      · cases cp <;>
          simp [write_json, hdir, mkdirParents, isPrefixOf_self, hdump, hfs]
      · intro d2 n2
        cases cp <;>
          simp [write_json, hdir, mkdirParents, isPrefixOf_self, hdump, hfs,
            FS.setFile, FS.delFile] <;>
          by_cases hh : d2 = p.parent ∧ n2 = tmpName p rand <;> simp [hh]
  refine ⟨hmain.1, ?_, ?_, ?_, ?_⟩
  · rw [hmain.2 p.parent (tmpName p rand)]
    simp
  · intro n2 hn2
    rw [hmain.2 p.parent n2]
    simp [hn2]
  · intro d2 hd2 n2
    rw [hmain.2 d2 n2]
    simp [hd2]
  · rw [hmain.2 p.parent p.name]
    simp [Ne.symm (tmpName_ne p rand)]

/-- C3 counterexample: when the final `os.replace` itself fails, the
temporary file IS left behind (the source deletes it only on failures
before the rename; `os.replace` sits outside the cleanup block). -/
theorem claim_c3_counterexample :
    (write_json ⟨fun _ => true, fun _ _ => none⟩ ⟨[], "t.json"⟩ .null "utf-8" none
        false true true none 1 "r" ⟨none, some (.oserr "replace failed")⟩).1 =
      .error (.oserr "replace failed") ∧
    (write_json ⟨fun _ => true, fun _ _ => none⟩ ⟨[], "t.json"⟩ .null "utf-8" none
        false true true none 1 "r" ⟨none, some (.oserr "replace failed")⟩).2.files []
      (tmpName ⟨[], "t.json"⟩ "r") = some (['n', 'u', 'l', 'l'] ++ ['\n']) := by
  constructor <;>
    simp [write_json, mkdirParents, isPrefixOf_self, dumpVal, FS.setFile,
      FS.delFile]

/-- C3 (amended): the temporary file is renamed into the target on
success and deleted on any failure before the rename; only a failure of
the rename/replace step itself can leave it behind. -/
theorem claim_c3_amended_tmp_lifecycle :
    ∀ (fs : FS) (p : FPath) (data : PyVal) (encoding : String) (ind : Option Int)
      (ea cp : Bool) (dflt : Option Encoder) (fuel : Nat) (rand : String)
      (fault : Fault),
      fs.dirs p.parent = true →
      fault.replace = none →
      (write_json fs p data encoding ind ea cp true dflt fuel rand fault).2.files
        p.parent (tmpName p rand) = none ∧
      (∀ out, dumpVal (dflt.getD jsonDefaultEnc) ea ind fuel 0 data = .ok out →
        fault.fsync = none →
        (write_json fs p data encoding ind ea cp true dflt fuel rand fault).1 =
          .ok () ∧
        (write_json fs p data encoding ind ea cp true dflt fuel rand fault).2.files
          p.parent p.name = some (out ++ ['\n'])) := by
  intro fs p data encoding ind ea cp dflt fuel rand fault hdir hrep
  constructor
  · cases hdump : dumpVal (dflt.getD jsonDefaultEnc) ea ind fuel 0 data with
    | error ep =>
      obtain ⟨e, part⟩ := ep
      cases cp <;>
        simp [write_json, hdir, mkdirParents, isPrefixOf_self, hdump,
          FS.setFile, FS.delFile]
    | ok out =>
      cases hfs : fault.fsync with
      | none =>
        cases cp <;>
          simp [write_json, hdir, mkdirParents, isPrefixOf_self, hdump, hfs, hrep,
            FS.setFile, FS.delFile, tmpName_ne p rand]
      | some e2 =>
        cases cp <;>
          simp [write_json, hdir, mkdirParents, isPrefixOf_self, hdump, hfs,
            FS.setFile, FS.delFile]
  · intro out hdump hfs
    cases cp <;>
      simp [write_json, hdir, mkdirParents, isPrefixOf_self, hdump, hfs, hrep,
        FS.setFile, FS.delFile]

/-- C1 witness: a concrete injected fsync fault on an empty filesystem. -/
theorem claim_c1_witness :
    (write_json ⟨fun _ => true, fun _ _ => none⟩ ⟨[], "t.json"⟩ .null "utf-8" none
        false true true none 5 "r" ⟨some (.oserr "fsync failed"), none⟩).1 =
      .error (.oserr "fsync failed") ∧
    (write_json ⟨fun _ => true, fun _ _ => none⟩ ⟨[], "t.json"⟩ .null "utf-8" none
        false true true none 5 "r" ⟨some (.oserr "fsync failed"), none⟩).2.files []
      (tmpName ⟨[], "t.json"⟩ "r") = none := by
  have h := claim_c1_atomic_failure_clean ⟨fun _ => true, fun _ _ => none⟩
    ⟨[], "t.json"⟩ .null "utf-8" none false true none 5 "r"
    ⟨some (.oserr "fsync failed"), none⟩ (.oserr "fsync failed") rfl
    (Or.inr ⟨rfl, ['n', 'u', 'l', 'l'], by simp [dumpVal]⟩)
  exact ⟨h.1, h.2.1⟩

/-- C2 witness: a concrete two-element list round-trips through an
atomic indented write. -/
theorem claim_c2_witness :
    (write_json ⟨fun _ => true, fun _ _ => none⟩ ⟨["d"], "f.json"⟩
        (.list [.int 1, .str "a"]) "utf-8" (some 2) false true true none 9 "r4"
        noFault).1 = .ok () ∧
    read_json ((write_json ⟨fun _ => true, fun _ _ => none⟩ ⟨["d"], "f.json"⟩
        (.list [.int 1, .str "a"]) "utf-8" (some 2) false true true none 9 "r4"
        noFault).2) ⟨["d"], "f.json"⟩ "utf-8" = .ok (.list [.int 1, .str "a"]) :=
  claim_c2_roundtrip ⟨fun _ => true, fun _ _ => none⟩ ⟨["d"], "f.json"⟩
    (.list [.int 1, .str "a"]) "utf-8" (some 2) true none 9 "r4"
    (by simp [isNative, nativeItems])
    (by simp [FVal, FItems])

/-- C3 amended-claim witness: with no replace fault, a concrete write
leaves no temporary file and renames the content into the target. -/
theorem claim_c3_amended_witness :
    (write_json ⟨fun _ => true, fun _ _ => none⟩ ⟨[], "t.json"⟩ .null "utf-8" none
        false true true none 1 "r" noFault).2.files []
      (tmpName ⟨[], "t.json"⟩ "r") = none ∧
    (write_json ⟨fun _ => true, fun _ _ => none⟩ ⟨[], "t.json"⟩ .null "utf-8" none
        false true true none 1 "r" noFault).2.files [] "t.json" =
      some (['n', 'u', 'l', 'l'] ++ ['\n']) := by
  have h := claim_c3_amended_tmp_lifecycle ⟨fun _ => true, fun _ _ => none⟩
    ⟨[], "t.json"⟩ .null "utf-8" none false true none 1 "r" noFault rfl rfl
  exact ⟨h.1, (h.2 ['n', 'u', 'l', 'l'] (by simp [dumpVal]) rfl).2⟩
